import Mathlib

/-!
# DeepArchitect search-space engine: formal model and verification

This file gives a shallow embedding of the DeepArchitect search-space
specification and traversal engine (the `darch` Module / Hyperparameter /
Scope / Searcher core driven by `tutorial.ipynb`) and proves properties of
it.  The repository ships only the tutorial notebook; the engine itself
(`darch/base.py`, `darch/modules.py`, `darch/searchers.py`) is referenced
by the notebook but its code is not part of the sources, so the engine is
modelled from the specification's own description, faithful to its words.
-/

namespace DArch

/-- Candidate values of hyperparameters are modelled as natural numbers
(indices, counts, booleans as 0/1). -/
abbrev Val := Nat

/-- Modelled from the spec: the error taxonomy of §7 relevant to the
hyperparameter/compile contract. -/
inductive DError where
  | alreadyResolvedError
  | invalidValueError
  | notFullyResolvedError
  | fragmentShapeError
deriving DecidableEq, Repr

/-- Modelled from the spec: a Hyperparameter is "a named choice among a
discrete set of candidate values, resolvable exactly once"; it carries a
name, the ordered candidate list, and an optional resolved value
(`none` = unresolved). -/
structure Hyperparameter where
  name : String
  candidates : List Val
  value : Option Val
deriving DecidableEq, Repr

/-- Modelled from the spec: `is_resolved()` is a pure query on the
resolved flag. -/
def Hyperparameter.isResolved (h : Hyperparameter) : Bool :=
  h.value.isSome

/-- Modelled from the spec: "`resolve(value)` fails with
`AlreadyResolvedError` if called twice, or `InvalidValueError` if `value`
is not in the declared candidate set"; otherwise it transitions
unresolved → resolved with that value and changes nothing else. -/
def Hyperparameter.resolve (h : Hyperparameter) (v : Val) :
    Except DError Hyperparameter :=
  if h.isResolved then .error .alreadyResolvedError
  else if v ∈ h.candidates then .ok { h with value := some v }
  else .error .invalidValueError

/-- Modelled from the spec: the Module tree (§3's tagged union of concrete
module variants).  Unfolding is represented by the resolved value of the
composite's own hyperparameter selecting which part of the fixed structure
is materialized: `optional` uses 0 = skip / 1 = include, `orMod` selects an
index into the alternatives, `repeatMod` holds independent pre-built copies
of its template of which the first `k` materialize, and `repeatTied` holds
one shared template whose hyperparameters are aliased across all `k`
materialized copies (resolving one resolves all). -/
inductive Module where
  | leaf (typeName : String) (hps : List Hyperparameter)
  | userHyperparams (names : List String) (hps : List Hyperparameter)
  | concat (children : List Module)
  | optional (h : Hyperparameter) (inner : Module)
  | orMod (h : Hyperparameter) (alts : List Module)
  | repeatMod (h : Hyperparameter) (copies : List Module)
  | repeatTied (h : Hyperparameter) (template : Module)
  | residual (inner : Module)

mutual

/-- Modelled from the spec: `get_unresolved_hyperparameter()` "returns one
still-unresolved Hyperparameter reachable from this node (from itself if
the node has not unfolded, else recursively from its current children), or
a sentinel none if the entire subtree is fully compiled", depth-first,
leftmost child first. -/
def Module.getUnresolvedHyperparameter : Module → Option Hyperparameter
  | .leaf _ hps => hps.find? (fun h => !h.isResolved)
  | .userHyperparams _ hps => hps.find? (fun h => !h.isResolved)
  | .concat cs => getUnresolvedList cs
  | .optional h inner =>
      match h.value with
      | none => some h
      | some v => if v = 0 then none else inner.getUnresolvedHyperparameter
  | .orMod h alts =>
      match h.value with
      | none => some h
      | some i =>
          match halt : alts[i]? with
          | some a => a.getUnresolvedHyperparameter
          | none => none
  | .repeatMod h copies =>
      match h.value with
      | none => some h
      | some k => getUnresolvedListN k copies
  | .repeatTied h template =>
      match h.value with
      | none => some h
      | some k => if k = 0 then none else template.getUnresolvedHyperparameter
  | .residual inner => inner.getUnresolvedHyperparameter
termination_by m => sizeOf m
decreasing_by
  all_goals simp_wf
  all_goals try omega
  · have hi : i < alts.length := (List.getElem?_eq_some.mp halt).1
    have hv : alts[i] = a := (List.getElem?_eq_some.mp halt).2
    have := List.sizeOf_lt_of_mem (hv ▸ List.getElem_mem hi)
    omega

/-- Depth-first, leftmost-first search for an unresolved hyperparameter in
a child list. -/
def getUnresolvedList : List Module → Option Hyperparameter
  | [] => none
  | c :: cs =>
      match c.getUnresolvedHyperparameter with
      | some h => some h
      | none => getUnresolvedList cs
termination_by cs => sizeOf cs
decreasing_by
  all_goals simp_wf
  all_goals omega

/-- Depth-first search restricted to the first `k` materialized copies of
a `repeatMod` child list. -/
def getUnresolvedListN : Nat → List Module → Option Hyperparameter
  | 0, _ => none
  | _, [] => none
  | k + 1, c :: cs =>
      match c.getUnresolvedHyperparameter with
      | some h => some h
      | none => getUnresolvedListN k cs
termination_by k cs => sizeOf cs
decreasing_by
  all_goals simp_wf
  all_goals omega

end

/-- Resolve the first (leftmost, depth-first) unresolved hyperparameter of
a hyperparameter list with value `v`, via `Hyperparameter.resolve`.
Returns `none` when no hyperparameter is unresolved or the value is
rejected. -/
def resolveFirstHps : List Hyperparameter → Val → Option (List Hyperparameter)
  | [], _ => none
  | h :: hs, v =>
      if h.isResolved then (resolveFirstHps hs v).map (h :: ·)
      else ((h.resolve v).toOption).map (· :: hs)

mutual

/-- Modelled from the spec: one step of the searcher's drive loop acting on
the tree: the hyperparameter that `get_unresolved_hyperparameter` would
return is resolved with `v` (through `Hyperparameter.resolve`), and the
owning composite node's unfolding state is thereby advanced.  Returns
`none` when the subtree is already fully resolved or `resolve` rejects
`v`. -/
def Module.resolveFirst : Module → Val → Option Module
  | .leaf t hps, v => (resolveFirstHps hps v).map (.leaf t ·)
  | .userHyperparams ns hps, v => (resolveFirstHps hps v).map (.userHyperparams ns ·)
  | .concat cs, v => (resolveFirstList cs v).map .concat
  | .optional h inner, v =>
      match h.value with
      | none => ((h.resolve v).toOption).map (.optional · inner)
      | some b =>
          if b = 0 then none
          else (inner.resolveFirst v).map (.optional h ·)
  | .orMod h alts, v =>
      match h.value with
      | none => ((h.resolve v).toOption).map (.orMod · alts)
      | some i =>
          match halt : alts[i]? with
          | some a => (a.resolveFirst v).map (fun a' => .orMod h (alts.set i a'))
          | none => none
  | .repeatMod h copies, v =>
      match h.value with
      | none => ((h.resolve v).toOption).map (.repeatMod · copies)
      | some k => (resolveFirstListN k copies v).map (.repeatMod h ·)
  | .repeatTied h template, v =>
      match h.value with
      | none => ((h.resolve v).toOption).map (.repeatTied · template)
      | some k =>
          if k = 0 then none
          else (template.resolveFirst v).map (.repeatTied h ·)
  | .residual inner, v => (inner.resolveFirst v).map .residual
termination_by m => sizeOf m
decreasing_by
  all_goals simp_wf
  all_goals try omega
  · have hi : i < alts.length := (List.getElem?_eq_some.mp halt).1
    have hv : alts[i] = a := (List.getElem?_eq_some.mp halt).2
    have := List.sizeOf_lt_of_mem (hv ▸ List.getElem_mem hi)
    omega

/-- Drive-loop step on a child list: act on the first child that still has
an unresolved hyperparameter. -/
def resolveFirstList : List Module → Val → Option (List Module)
  | [], _ => none
  | c :: cs, v =>
      match c.getUnresolvedHyperparameter with
      | some _ => (c.resolveFirst v).map (· :: cs)
      | none => (resolveFirstList cs v).map (c :: ·)
termination_by cs => sizeOf cs
decreasing_by
  all_goals simp_wf
  all_goals omega

/-- Drive-loop step restricted to the first `k` materialized copies of a
`repeatMod` child list. -/
def resolveFirstListN : Nat → List Module → Val → Option (List Module)
  | 0, _, _ => none
  | _, [], _ => none
  | k + 1, c :: cs, v =>
      match c.getUnresolvedHyperparameter with
      | some _ => (c.resolveFirst v).map (· :: cs)
      | none => (resolveFirstListN k cs v).map (c :: ·)
termination_by k cs => sizeOf cs
decreasing_by
  all_goals simp_wf
  all_goals omega

end

mutual

/-- Number of hyperparameters that can still be resolved in the maximal
remaining unfolding of a (possibly partially resolved) module: unresolved
own hyperparameters count one each, an undecided alternation counts the
worst alternative, an undecided repetition counts every pre-built copy.
This is the decreasing measure of the drive loop. -/
def Module.unresolvedBound : Module → Nat
  | .leaf _ hps => (hps.filter (fun h => !h.isResolved)).length
  | .userHyperparams _ hps => (hps.filter (fun h => !h.isResolved)).length
  | .concat cs => boundSum cs
  | .optional h inner =>
      match h.value with
      | none => 1 + inner.unresolvedBound
      | some b => if b = 0 then 0 else inner.unresolvedBound
  | .orMod h alts =>
      match h.value with
      | none => 1 + boundMax alts
      | some i =>
          match halt : alts[i]? with
          | some a => a.unresolvedBound
          | none => 0
  | .repeatMod h copies =>
      match h.value with
      | none => 1 + boundSum copies
      | some k => boundSumN k copies
  | .repeatTied h template =>
      match h.value with
      | none => 1 + template.unresolvedBound
      | some k => if k = 0 then 0 else template.unresolvedBound
  | .residual inner => inner.unresolvedBound
termination_by m => sizeOf m
decreasing_by
  all_goals simp_wf
  all_goals try omega
  · have hi : i < alts.length := (List.getElem?_eq_some.mp halt).1
    have hv : alts[i] = a := (List.getElem?_eq_some.mp halt).2
    have := List.sizeOf_lt_of_mem (hv ▸ List.getElem_mem hi)
    omega

/-- Sum of `unresolvedBound` over a child list. -/
def boundSum : List Module → Nat
  | [] => 0
  | c :: cs => c.unresolvedBound + boundSum cs
termination_by cs => sizeOf cs
decreasing_by
  all_goals simp_wf
  all_goals omega

/-- Maximum of `unresolvedBound` over a child list. -/
def boundMax : List Module → Nat
  | [] => 0
  | c :: cs => max c.unresolvedBound (boundMax cs)
termination_by cs => sizeOf cs
decreasing_by
  all_goals simp_wf
  all_goals omega

/-- Sum of `unresolvedBound` over the first `k` elements of a child
list. -/
def boundSumN : Nat → List Module → Nat
  | 0, _ => 0
  | _, [] => 0
  | k + 1, c :: cs => c.unresolvedBound + boundSumN k cs
termination_by k cs => sizeOf cs
decreasing_by
  all_goals simp_wf
  all_goals omega

end

mutual

/-- Every hyperparameter appearing anywhere in the fixed structure of the
tree (the fully unfolded tree): own hyperparameters of every node, all
alternatives, all pre-built copies, and the shared template of a tied
repetition once (its copies alias a single hyperparameter object). -/
def Module.allHps : Module → List Hyperparameter
  | .leaf _ hps => hps
  | .userHyperparams _ hps => hps
  | .concat cs => allHpsList cs
  | .optional h inner => h :: inner.allHps
  | .orMod h alts => h :: allHpsList alts
  | .repeatMod h copies => h :: allHpsList copies
  | .repeatTied h template => h :: template.allHps
  | .residual inner => inner.allHps
termination_by m => sizeOf m
decreasing_by
  all_goals simp_wf
  all_goals omega

/-- All hyperparameters of a child list. -/
def allHpsList : List Module → List Hyperparameter
  | [] => []
  | c :: cs => c.allHps ++ allHpsList cs
termination_by cs => sizeOf cs
decreasing_by
  all_goals simp_wf
  all_goals omega

end

/-- Total hyperparameter count of the fully unfolded tree. -/
def Module.totalHpCount (m : Module) : Nat :=
  m.allHps.length

/-- A search space is well formed when every hyperparameter in it has a
nonempty candidate set ("finite, by construction" choice sets the searcher
can always pick from). -/
def Module.wellFormed (m : Module) : Prop :=
  ∀ h ∈ m.allHps, h.candidates ≠ []

/-- Modelled from the spec: a computational-graph fragment, as produced by
compiling a fully resolved module.  `comp` is a leaf computation chained
onto its input fragment (with the resolved hyperparameter values as
parameters); `add` is the element-wise addition a residual connection
emits.  The input of the whole graph is `none` (the tutorial compiles with
`None` input as well). -/
inductive Fragment where
  | comp (typeName : String) (params : List Val) (inp : Option Fragment)
  | add (skip : Option Fragment) (main : Option Fragment)

/-- Modelled from the spec: "all shape information is only available
post-hyperparameter-resolution" — the output shape of a leaf computation
is abstracted as its resolved numeric parameter vector (the spec gives no
per-operation shape arithmetic, only that "hyperparameters select numeric
shape choices"), a residual addition has the shape of its main branch
(its two branches are checked compatible when it is built), and the shape
of the absent input `none` is unknown. -/
def shapeOf : Option Fragment → Option (List Val)
  | none => none
  | some (.comp _ params _) => some params
  | some (.add _ mainF) => shapeOf mainF

/-- Modelled from the spec: a Residual's wrapped content "must preserve
input/output shape compatibility"; two fragments are compatible when
their shapes agree, and compatibility can only be refuted when both
shapes are known. -/
def shapeCompatible (a b : Option Fragment) : Bool :=
  match shapeOf a, shapeOf b with
  | some s1, some s2 => s1 = s2
  | _, _ => true

/-- Modelled from the spec: one Scope entry — "a mapping of that module's
internal named state (its resolved hyperparameter values and any derived
bookkeeping)", here the documented `hyperp_names` / `hyperp_vals` key
pair, together with the type name used for instance identity. -/
structure ScopeEntry where
  typeName : String
  hyperpNames : List String
  hyperpVals : List Val
deriving DecidableEq, Repr

/-- Modelled from the spec: the Scope, "a single mapping from
(module-type, instance-index) identity strings to a mapping of that
module's internal named state", populated incrementally as modules
compile. -/
structure Scope where
  s : List ((String × Nat) × ScopeEntry)
deriving DecidableEq, Repr

/-- The empty scope of a fresh search-space tree. -/
def Scope.empty : Scope := ⟨[]⟩

/-- Modelled from the spec: the documented narrow query interface
`scope.lookup(instance_name, ...)` for the entry stored under an instance
identity.  The identity string "TypeName-index" is modelled as the pair
(type name, instance index). -/
def Scope.lookup (sc : Scope) (instanceKey : String × Nat) : Option ScopeEntry :=
  (sc.s.find? (fun p => p.1 = instanceKey)).map (·.2)

/-- Modelled from the spec: instance identity is "generated
deterministically (type name + monotonic counter)": the next identity for
a module type pairs the type name with the number of instances of that
type already registered. -/
def Scope.nextInstanceKey (sc : Scope) (typeName : String) : String × Nat :=
  (typeName, (sc.s.filter (fun p => p.2.typeName = typeName)).length)

/-- Register a module instance's entry under the next deterministic
instance identity for its type. -/
def Scope.register (sc : Scope) (e : ScopeEntry) : Scope :=
  ⟨sc.s ++ [(sc.nextInstanceKey e.typeName, e)]⟩

/-- The resolved values of a fully resolved hyperparameter list. -/
def resolvedVals (hps : List Hyperparameter) : List Val :=
  hps.map (fun h => h.value.getD 0)

mutual

/-- Modelled from the spec: the fragment-emission part of
`compile(input_fragment, scope, instance_name)` — it "produces the
module's output graph fragment(s) by either emitting a leaf computation
or recursively compiling children and chaining their fragments".  A
choice that materializes zero children chains the input directly to the
output (identity).  A `Residual` checks the shape compatibility of its
input fragment against its wrapped content's output and raises
`FragmentShapeError` on a mismatch, "at compile time, not caught
earlier".  `UserHyperparams` holds no compute fragment: it passes the
input through (also when it is `None`) and records its resolved names
and values into the Scope under the `hyperp_names` / `hyperp_vals`
convention; instance names are generated deterministically from the type
name, so the caller may pass `None` for the instance name. -/
def Module.emitFragments : Module → Option Fragment → Scope → Except DError (Option Fragment × Scope)
  | .leaf t hps, inF, sc =>
      if hps.all (fun h => h.isResolved) then
        .ok (some (.comp t (resolvedVals hps) inF), sc)
      else .error .notFullyResolvedError
  | .userHyperparams names hps, inF, sc =>
      if hps.all (fun h => h.isResolved) then
        .ok (inF, sc.register ⟨"UserHyperparams", names, resolvedVals hps⟩)
      else .error .notFullyResolvedError
  | .concat cs, inF, sc => emitList cs inF sc
  | .optional h inner, inF, sc =>
      match h.value with
      | none => .error .notFullyResolvedError
      | some b => if b = 0 then .ok (inF, sc) else inner.emitFragments inF sc
  | .orMod h alts, inF, sc =>
      match h.value with
      | none => .error .notFullyResolvedError
      | some i =>
          match halt : alts[i]? with
          | some a => a.emitFragments inF sc
          | none => .ok (inF, sc)
  | .repeatMod h copies, inF, sc =>
      match h.value with
      | none => .error .notFullyResolvedError
      | some k => emitListN k copies inF sc
  | .repeatTied h template, inF, sc =>
      match h.value with
      | none => .error .notFullyResolvedError
      | some k => emitRep k template inF sc
  | .residual inner, inF, sc =>
      match inner.emitFragments inF sc with
      | .ok (out, sc') =>
          if shapeCompatible inF out then .ok (some (.add inF out), sc')
          else .error .fragmentShapeError
      | .error e => .error e
termination_by m => (sizeOf m, 0)
decreasing_by
  all_goals simp_wf
  all_goals try omega
  · have hi : i < alts.length := (List.getElem?_eq_some.mp halt).1
    have hv : alts[i] = a := (List.getElem?_eq_some.mp halt).2
    have := List.sizeOf_lt_of_mem (hv ▸ List.getElem_mem hi)
    omega

/-- Emit a child list sequentially, chaining each child's output
fragment into the next child's input and threading the scope. -/
def emitList : List Module → Option Fragment → Scope → Except DError (Option Fragment × Scope)
  | [], inF, sc => .ok (inF, sc)
  | c :: cs, inF, sc =>
      match c.emitFragments inF sc with
      | .ok (f, sc') => emitList cs f sc'
      | .error e => .error e
termination_by cs => (sizeOf cs, 0)
decreasing_by
  all_goals simp_wf
  all_goals omega

/-- Emit the first `k` materialized copies of a `repeatMod` child list
sequentially. -/
def emitListN : Nat → List Module → Option Fragment → Scope → Except DError (Option Fragment × Scope)
  | 0, _, inF, sc => .ok (inF, sc)
  | _, [], inF, sc => .ok (inF, sc)
  | k + 1, c :: cs, inF, sc =>
      match c.emitFragments inF sc with
      | .ok (f, sc') => emitListN k cs f sc'
      | .error e => .error e
termination_by k cs => (sizeOf cs, 0)
decreasing_by
  all_goals simp_wf
  all_goals omega

/-- Emit `k` tied copies of a shared template sequentially (the copies
alias the same hyperparameter objects, hence the same template). -/
def emitRep : Nat → Module → Option Fragment → Scope → Except DError (Option Fragment × Scope)
  | 0, _, inF, sc => .ok (inF, sc)
  | k + 1, template, inF, sc =>
      match template.emitFragments inF sc with
      | .ok (f, sc') => emitRep k template f sc'
      | .error e => .error e
termination_by k template => (sizeOf template, k)
decreasing_by
  all_goals simp_wf
  all_goals omega

end

/-- Modelled from the spec: `compile(input_fragment, scope, instance_name)`
is "only meaningful once `get_unresolved_hyperparameter()` reports none
for the subtree" and "fails with `NotFullyResolvedError` if called while
unresolved hyperparameters remain"; once the subtree is fully resolved it
emits the output graph fragments, which may still fail with
`FragmentShapeError` on a residual shape mismatch. -/
def Module.compile (m : Module) (inF : Option Fragment) (sc : Scope) :
    Except DError (Option Fragment × Scope) :=
  match m.getUnresolvedHyperparameter with
  | some _ => .error .notFullyResolvedError
  | none => m.emitFragments inF sc

/-- The child modules a composite has currently materialized: selected by
the resolved value of its own hyperparameter (none while that
hyperparameter is unresolved); a tied repetition materializes `k` aliased
copies of its shared template. -/
def Module.materializedChildren : Module → List Module
  | .leaf _ _ => []
  | .userHyperparams _ _ => []
  | .concat cs => cs
  | .optional h inner =>
      match h.value with
      | none => []
      | some b => if b = 0 then [] else [inner]
  | .orMod h alts =>
      match h.value with
      | none => []
      | some i =>
          match alts[i]? with
          | some a => [a]
          | none => []
  | .repeatMod h copies =>
      match h.value with
      | none => []
      | some k => copies.take k
  | .repeatTied h template =>
      match h.value with
      | none => []
      | some k => List.replicate k template
  | .residual inner => [inner]

/-- The diagnostic rendering of one hyperparameter: its resolved value
once resolved, otherwise its candidate set — reading a value is never
required. -/
inductive HpRepr where
  | resolvedV (name : String) (v : Val)
  | unresolvedC (name : String) (cs : List Val)
deriving DecidableEq, Repr

/-- A nested, human-readable structural description of a (possibly
partially resolved) module tree. -/
inductive ProgRepr where
  | node (label : String) (hps : List HpRepr) (children : List ProgRepr)

/-- Render one hyperparameter for diagnostics. -/
def hpRepr (h : Hyperparameter) : HpRepr :=
  match h.value with
  | some v => .resolvedV h.name v
  | none => .unresolvedC h.name h.candidates

mutual

/-- Modelled from the spec: `repr_program()` "produces a nested,
human-readable structural description of the (possibly partially
resolved) tree, for diagnostics; must not require full resolution".  It
returns `Except` like the rest of the module interface but never errors:
unresolved hyperparameters are rendered as their candidate sets.  Nodes
whose own hyperparameter is resolved show only the materialized
children. -/
def Module.reprProgram : Module → Except DError ProgRepr
  | .leaf t hps => .ok (.node t (hps.map hpRepr) [])
  | .userHyperparams _ hps => .ok (.node "UserHyperparams" (hps.map hpRepr) [])
  | .concat cs => (reprList cs).map (.node "Concat" [])
  | .optional h inner =>
      match h.value with
      | none => (inner.reprProgram).map (fun r => .node "Optional" [hpRepr h] [r])
      | some b =>
          if b = 0 then .ok (.node "Optional" [hpRepr h] [])
          else (inner.reprProgram).map (fun r => .node "Optional" [hpRepr h] [r])
  | .orMod h alts =>
      match h.value with
      | none => (reprList alts).map (.node "Or" [hpRepr h])
      | some i =>
          match halt : alts[i]? with
          | some a => (a.reprProgram).map (fun r => .node "Or" [hpRepr h] [r])
          | none => .ok (.node "Or" [hpRepr h] [])
  | .repeatMod h copies =>
      match h.value with
      | none => (reprList copies).map (.node "Repeat" [hpRepr h])
      | some k => (reprListN k copies).map (.node "Repeat" [hpRepr h])
  | .repeatTied h template =>
      match h.value with
      | none => (template.reprProgram).map (fun r => .node "RepeatTied" [hpRepr h] [r])
      | some k =>
          if k = 0 then .ok (.node "RepeatTied" [hpRepr h] [])
          else (template.reprProgram).map (fun r => .node "RepeatTied" [hpRepr h] [r])
  | .residual inner => (inner.reprProgram).map (fun r => .node "Residual" [] [r])
termination_by m => sizeOf m
decreasing_by
  all_goals simp_wf
  all_goals try omega
  · have hi : i < alts.length := (List.getElem?_eq_some.mp halt).1
    have hv : alts[i] = a := (List.getElem?_eq_some.mp halt).2
    have := List.sizeOf_lt_of_mem (hv ▸ List.getElem_mem hi)
    omega

/-- Render a child list for diagnostics. -/
def reprList : List Module → Except DError (List ProgRepr)
  | [] => .ok []
  | c :: cs =>
      match c.reprProgram with
      | .ok r => (reprList cs).map (r :: ·)
      | .error e => .error e
termination_by cs => sizeOf cs
decreasing_by
  all_goals simp_wf
  all_goals omega

/-- Render the first `k` materialized copies of a `repeatMod` child list
for diagnostics. -/
def reprListN : Nat → List Module → Except DError (List ProgRepr)
  | 0, _ => .ok []
  | _, [] => .ok []
  | k + 1, c :: cs =>
      match c.reprProgram with
      | .ok r => (reprListN k cs).map (r :: ·)
      | .error e => .error e
termination_by k cs => sizeOf cs
decreasing_by
  all_goals simp_wf
  all_goals omega

end

mutual

/-- Whether every hyperparameter listed in a diagnostic representation is
rendered with a resolved value. -/
def ProgRepr.allResolved : ProgRepr → Bool
  | .node _ hps children =>
      hps.all (fun r => match r with | .resolvedV _ _ => true | .unresolvedC _ _ => false)
        && allResolvedList children

/-- `ProgRepr.allResolved` over a list of children. -/
def allResolvedList : List ProgRepr → Bool
  | [] => true
  | r :: rs => r.allResolved && allResolvedList rs

end

/-- Modelled from the spec: the random searcher's policy "picks uniformly
from the hyperparameter's candidate set", driven by an explicit,
injectable seed (no hidden global state): the current seed selects the
candidate index, and the seed is advanced by a linear congruential
step. -/
def lcgNext (s : Nat) : Nat :=
  (1103515245 * s + 12345) % 2147483648

/-- Pick a candidate value for a hyperparameter from the current seed and
return the advanced seed. -/
def pickCandidate (s : Nat) (h : Hyperparameter) : Val × Nat :=
  (h.candidates.getD (s % h.candidates.length) 0, lcgNext s)

/-- Modelled from the spec: the searcher's drive loop — "repeatedly call
`get_unresolved_hyperparameter()`; if none, transition to COMPILED and
return the tree for compilation; otherwise select a candidate value for
the returned hyperparameter per the searcher's policy, resolve it, and
loop."  The policy threads its own state `s` (for the random searcher: the
seed); the loop returns the final tree, the final policy state, and the
ordered choice history.  `fuel` bounds the number of iterations; the
termination theorem shows `totalHpCount` fuel always suffices. -/
def driveLoop (policy : Nat → Hyperparameter → Val × Nat) :
    Nat → Nat → Module → Module × Nat × List Val
  | 0, s, m => (m, s, [])
  | fuel + 1, s, m =>
      match m.getUnresolvedHyperparameter with
      | none => (m, s, [])
      | some h =>
          match m.resolveFirst (policy s h).1 with
          | some m' =>
              let r := driveLoop policy fuel (policy s h).2 m'
              (r.1, r.2.1, (policy s h).1 :: r.2.2)
          | none => (m, (policy s h).2, [])

/-- The random searcher: drive the tree to completion from an explicit
seed, with fuel given by the total hyperparameter count of the fully
unfolded tree. -/
def runRandomSearcher (seed : Nat) (m : Module) : Module × Nat × List Val :=
  driveLoop pickCandidate m.totalHpCount seed m

/-- Number of leaf computations in a compiled graph fragment. -/
def countComps : Option Fragment → Nat
  | none => 0
  | some (.comp _ _ i) => 1 + countComps i
  | some (.add a b) => countComps a + countComps b

/-- The tutorial-style end-to-end example space: a sequential chain of two
leaf modules, LeafA with candidates [1, 2] and LeafB with candidates
[10, 20]. -/
def exampleConcatSpace : Module :=
  .concat [.leaf "LeafA" [⟨"a", [1, 2], none⟩],
    .leaf "LeafB" [⟨"b", [10, 20], none⟩]]

theorem getUnresolved_orMod_getElem (h : Hyperparameter) (alts : List Module) (i : Nat)
    (hv : h.value = some i) :
    (Module.orMod h alts).getUnresolvedHyperparameter
      = match alts[i]? with
        | some a => a.getUnresolvedHyperparameter
        | none => none := by
  rw [Module.getUnresolvedHyperparameter]
  rw [hv]
  split <;> simp_all
  split <;> simp_all
  all_goals
    rename_i hle
    simp [List.getElem?_eq_none hle]

theorem resolveFirst_orMod_getElem (h : Hyperparameter) (alts : List Module) (i : Nat)
    (v : Val) (hv : h.value = some i) :
    (Module.orMod h alts).resolveFirst v
      = match alts[i]? with
        | some a => (a.resolveFirst v).map (fun a' => .orMod h (alts.set i a'))
        | none => none := by
  rw [Module.resolveFirst]
  rw [hv]
  split <;> simp_all
  split <;> simp_all
  all_goals
    rename_i hle
    simp [List.getElem?_eq_none hle]

theorem unresolvedBound_orMod_getElem (h : Hyperparameter) (alts : List Module) (i : Nat)
    (hv : h.value = some i) :
    (Module.orMod h alts).unresolvedBound
      = match alts[i]? with
        | some a => a.unresolvedBound
        | none => 0 := by
  rw [Module.unresolvedBound]
  rw [hv]
  split <;> simp_all
  split <;> simp_all
  all_goals
    rename_i hle
    simp [List.getElem?_eq_none hle]

theorem emit_orMod_getElem (h : Hyperparameter) (alts : List Module) (i : Nat)
    (inF : Option Fragment) (sc : Scope) (hv : h.value = some i) :
    (Module.orMod h alts).emitFragments inF sc
      = match alts[i]? with
        | some a => a.emitFragments inF sc
        | none => .ok (inF, sc) := by
  rw [Module.emitFragments]
  rw [hv]
  split <;> simp_all
  split <;> simp_all
  all_goals
    rename_i hle
    simp [List.getElem?_eq_none hle]

theorem compile_of_unresolved (m : Module) (inF : Option Fragment) (sc : Scope)
    (h : Hyperparameter) (hg : m.getUnresolvedHyperparameter = some h) :
    m.compile inF sc = .error .notFullyResolvedError := by
  simp only [Module.compile, hg]

theorem compile_of_resolved (m : Module) (inF : Option Fragment) (sc : Scope)
    (hg : m.getUnresolvedHyperparameter = none) :
    m.compile inF sc = m.emitFragments inF sc := by
  simp only [Module.compile, hg]

theorem reprProgram_orMod_getElem (h : Hyperparameter) (alts : List Module) (i : Nat)
    (hv : h.value = some i) :
    (Module.orMod h alts).reprProgram
      = match alts[i]? with
        | some a => (a.reprProgram).map (fun r => .node "Or" [hpRepr h] [r])
        | none => .ok (.node "Or" [hpRepr h] []) := by
  rw [Module.reprProgram]
  rw [hv]
  split <;> simp_all
  split <;> simp_all
  all_goals
    rename_i hle
    simp [List.getElem?_eq_none hle]

theorem boundSumN_le_boundSum (k : Nat) (cs : List Module) :
    boundSumN k cs ≤ boundSum cs := by
  induction cs generalizing k with
  | nil => cases k <;> simp [boundSumN, boundSum]
  | cons c cs ih =>
    cases k with
    | zero => simp [boundSumN]
    | succ k =>
      have := ih k
      simp only [boundSumN, boundSum]
      omega

theorem boundMax_getElem (cs : List Module) (i : Nat) (a : Module)
    (ha : cs[i]? = some a) : a.unresolvedBound ≤ boundMax cs := by
  induction cs generalizing i with
  | nil => simp at ha
  | cons c cs ih =>
    cases i with
    | zero =>
      simp only [List.getElem?_cons_zero, Option.some.injEq] at ha
      subst ha
      rw [boundMax]
      exact le_max_left _ _
    | succ i =>
      simp only [List.getElem?_cons_succ] at ha
      rw [boundMax]
      exact le_trans (ih i ha) (le_max_right _ _)

theorem mem_allHpsList {h' : Hyperparameter} {cs : List Module} :
    h' ∈ allHpsList cs ↔ ∃ c ∈ cs, h' ∈ c.allHps := by
  induction cs with
  | nil => simp [allHpsList]
  | cons c cs ih =>
    rw [allHpsList]
    simp only [List.mem_append, ih, List.mem_cons]
    constructor
    · rintro (hc | ⟨d, hd, hh⟩)
      · exact ⟨c, Or.inl rfl, hc⟩
      · exact ⟨d, Or.inr hd, hh⟩
    · rintro ⟨d, hd | hd, hh⟩
      · exact Or.inl (hd ▸ hh)
      · exact Or.inr ⟨d, hd, hh⟩

theorem resolveFirstHps_of_find (hps : List Hyperparameter) (h : Hyperparameter) (v : Val)
    (hf : hps.find? (fun x => !x.isResolved) = some h) (hv : v ∈ h.candidates) :
    ∃ hps', resolveFirstHps hps v = some hps' ∧
      (hps'.filter (fun x => !x.isResolved)).length
          < (hps.filter (fun x => !x.isResolved)).length ∧
      ∀ h' ∈ hps', ∃ h0 ∈ hps, h'.candidates = h0.candidates := by
  induction hps with
  | nil => simp at hf
  | cons h0 tl ih =>
    by_cases hr : h0.isResolved
    · rw [List.find?_cons_of_neg _ (by simp [hr])] at hf
      obtain ⟨tl', htl, hlen, hcand⟩ := ih hf
      refine ⟨h0 :: tl', by simp [resolveFirstHps, hr, htl], ?_, ?_⟩
      · simp only [List.filter_cons, hr, Bool.not_true, Bool.false_eq_true,
          if_false]
        exact hlen
      · intro h' hh'
        rcases List.mem_cons.mp hh' with rfl | hh'
        · exact ⟨h', List.mem_cons_self _ _, rfl⟩
        · obtain ⟨h1, hh1, he⟩ := hcand h' hh'
          exact ⟨h1, List.mem_cons_of_mem _ hh1, he⟩
    · rw [List.find?_cons_of_pos _ (by simp [hr])] at hf
      obtain rfl : h0 = h := by simpa using hf
      have hrv : h0.resolve v = .ok ⟨h0.name, h0.candidates, some v⟩ := by
        simp [Hyperparameter.resolve, hr, hv]
      refine ⟨⟨h0.name, h0.candidates, some v⟩ :: tl, ?_, ?_, ?_⟩
      · simp [resolveFirstHps, hr, hrv, Except.toOption]
      · have h1 : (⟨h0.name, h0.candidates, some v⟩ : Hyperparameter).isResolved
            = true := rfl
        simp only [List.filter_cons, h1, hr, Bool.not_true, Bool.not_false,
          Bool.false_eq_true, if_false, if_true, List.length_cons]
        omega
      · intro h' hh'
        rcases List.mem_cons.mp hh' with rfl | hh'
        · exact ⟨h0, List.mem_cons_self _ _, rfl⟩
        · exact ⟨h', List.mem_cons_of_mem _ hh', rfl⟩

theorem resolve_unresolved_mem (h : Hyperparameter) (v : Val)
    (hr : h.value = none) (hv : v ∈ h.candidates) :
    h.resolve v = .ok ⟨h.name, h.candidates, some v⟩ := by
  simp [Hyperparameter.resolve, Hyperparameter.isResolved, hr, hv]

mutual

theorem stepDecrease (m : Module) (h : Hyperparameter) (v : Val)
    (hg : m.getUnresolvedHyperparameter = some h) (hv : v ∈ h.candidates) :
    ∃ m', m.resolveFirst v = some m' ∧
      m'.unresolvedBound < m.unresolvedBound ∧
      ∀ h' ∈ m'.allHps, ∃ h0 ∈ m.allHps, h'.candidates = h0.candidates := by
  cases m with
  | leaf t hps =>
    rw [Module.getUnresolvedHyperparameter] at hg
    obtain ⟨hps', h1, h2, h3⟩ := resolveFirstHps_of_find hps h v hg hv
    refine ⟨.leaf t hps', ?_, ?_, ?_⟩
    · simp [Module.resolveFirst, h1]
    · simp only [Module.unresolvedBound]
      exact h2
    · simpa [Module.allHps] using h3
  | userHyperparams ns hps =>
    rw [Module.getUnresolvedHyperparameter] at hg
    obtain ⟨hps', h1, h2, h3⟩ := resolveFirstHps_of_find hps h v hg hv
    refine ⟨.userHyperparams ns hps', ?_, ?_, ?_⟩
    · simp [Module.resolveFirst, h1]
    · simp only [Module.unresolvedBound]
      exact h2
    · simpa [Module.allHps] using h3
  | concat cs =>
    rw [Module.getUnresolvedHyperparameter] at hg
    obtain ⟨cs', h1, h2, h3⟩ := stepDecreaseList cs h v hg hv
    refine ⟨.concat cs', ?_, ?_, ?_⟩
    · simp [Module.resolveFirst, h1]
    · simp only [Module.unresolvedBound]
      exact h2
    · simpa [Module.allHps] using h3
  | optional h0 inner =>
    rw [Module.getUnresolvedHyperparameter] at hg
    rcases hval : h0.value with _ | b
    · rw [hval] at hg
      obtain rfl : h0 = h := by simpa using hg
      have hrv := resolve_unresolved_mem h0 v hval hv
      refine ⟨.optional ⟨h0.name, h0.candidates, some v⟩ inner, ?_, ?_, ?_⟩
      · simp [Module.resolveFirst, hval, hrv, Except.toOption]
      · simp only [Module.unresolvedBound, hval]
        split <;> omega
      · intro h' hh'
        rw [Module.allHps] at hh' ⊢
        rcases List.mem_cons.mp hh' with rfl | hh'
        · exact ⟨h0, List.mem_cons_self _ _, rfl⟩
        · exact ⟨h', List.mem_cons_of_mem _ hh', rfl⟩
    · simp only [hval] at hg
      have hb : ¬b = 0 := by
        intro hb0
        rw [if_pos hb0] at hg
        exact Option.noConfusion hg
      rw [if_neg hb] at hg
      obtain ⟨t', h1, h2, h3⟩ := stepDecrease inner h v hg hv
      refine ⟨.optional h0 t', ?_, ?_, ?_⟩
      · simp [Module.resolveFirst, hval, hb, h1]
      · simp only [Module.unresolvedBound, hval, if_neg hb]
        exact h2
      · intro h' hh'
        rw [Module.allHps] at hh' ⊢
        rcases List.mem_cons.mp hh' with rfl | hh'
        · exact ⟨h', List.mem_cons_self _ _, rfl⟩
        · obtain ⟨h1', hm, he⟩ := h3 h' hh'
          exact ⟨h1', List.mem_cons_of_mem _ hm, he⟩
  | orMod h0 alts =>
    rcases hval : h0.value with _ | i
    · rw [Module.getUnresolvedHyperparameter, hval] at hg
      obtain rfl : h0 = h := by simpa using hg
      have hrv := resolve_unresolved_mem h0 v hval hv
      refine ⟨.orMod ⟨h0.name, h0.candidates, some v⟩ alts, ?_, ?_, ?_⟩
      · simp [Module.resolveFirst, hval, hrv, Except.toOption]
      · rw [unresolvedBound_orMod_getElem ⟨h0.name, h0.candidates, some v⟩ alts v rfl]
        have hR : (Module.orMod h0 alts).unresolvedBound = 1 + boundMax alts := by
          simp only [Module.unresolvedBound, hval]
        rw [hR]
        rcases halt : alts[v]? with _ | a
        · simp only [halt]
          omega
        · have := boundMax_getElem alts v a halt
          simp only [halt]
          omega
      · intro h' hh'
        rw [Module.allHps] at hh' ⊢
        rcases List.mem_cons.mp hh' with rfl | hh'
        · exact ⟨h0, List.mem_cons_self _ _, rfl⟩
        · exact ⟨h', List.mem_cons_of_mem _ hh', rfl⟩
    · rw [getUnresolved_orMod_getElem h0 alts i hval] at hg
      rcases halt : alts[i]? with _ | a
      · rw [halt] at hg
        exact Option.noConfusion hg
      · rw [halt] at hg
        have hilt : i < alts.length := (List.getElem?_eq_some.mp halt).1
        obtain ⟨a', h1, h2, h3⟩ := stepDecrease a h v hg hv
        refine ⟨.orMod h0 (alts.set i a'), ?_, ?_, ?_⟩
        · rw [resolveFirst_orMod_getElem h0 alts i v hval]
          simp [halt, h1]
        · rw [unresolvedBound_orMod_getElem h0 (alts.set i a') i hval,
            unresolvedBound_orMod_getElem h0 alts i hval, halt,
            List.getElem?_set_self (by simpa using hilt)]
          exact h2
        · intro h' hh'
          rw [Module.allHps] at hh' ⊢
          rcases List.mem_cons.mp hh' with rfl | hh'
          · exact ⟨h', List.mem_cons_self _ _, rfl⟩
          · obtain ⟨c, hc, hhc⟩ := mem_allHpsList.mp hh'
            rcases List.mem_or_eq_of_mem_set hc with hc' | rfl
            · exact ⟨h', List.mem_cons_of_mem _
                (mem_allHpsList.mpr ⟨c, hc', hhc⟩), rfl⟩
            · obtain ⟨h1', hm, he⟩ := h3 h' hhc
              have hamem : a ∈ alts := by
                have := (List.getElem?_eq_some.mp halt).2
                exact this ▸ List.getElem_mem hilt
              exact ⟨h1', List.mem_cons_of_mem _
                (mem_allHpsList.mpr ⟨a, hamem, hm⟩), he⟩
  | repeatMod h0 copies =>
    rcases hval : h0.value with _ | k
    · rw [Module.getUnresolvedHyperparameter, hval] at hg
      obtain rfl : h0 = h := by simpa using hg
      have hrv := resolve_unresolved_mem h0 v hval hv
      refine ⟨.repeatMod ⟨h0.name, h0.candidates, some v⟩ copies, ?_, ?_, ?_⟩
      · simp [Module.resolveFirst, hval, hrv, Except.toOption]
      · simp only [Module.unresolvedBound, hval]
        have := boundSumN_le_boundSum v copies
        omega
      · intro h' hh'
        rw [Module.allHps] at hh' ⊢
        rcases List.mem_cons.mp hh' with rfl | hh'
        · exact ⟨h0, List.mem_cons_self _ _, rfl⟩
        · exact ⟨h', List.mem_cons_of_mem _ hh', rfl⟩
    · rw [Module.getUnresolvedHyperparameter] at hg
      simp only [hval] at hg
      obtain ⟨cs', h1, h2, h3⟩ := stepDecreaseListN k copies h v hg hv
      refine ⟨.repeatMod h0 cs', ?_, ?_, ?_⟩
      · simp [Module.resolveFirst, hval, h1]
      · simp only [Module.unresolvedBound, hval]
        exact h2
      · intro h' hh'
        rw [Module.allHps] at hh' ⊢
        rcases List.mem_cons.mp hh' with rfl | hh'
        · exact ⟨h', List.mem_cons_self _ _, rfl⟩
        · obtain ⟨h1', hm, he⟩ := h3 h' hh'
          exact ⟨h1', List.mem_cons_of_mem _ hm, he⟩
  | repeatTied h0 template =>
    rcases hval : h0.value with _ | k
    · rw [Module.getUnresolvedHyperparameter, hval] at hg
      obtain rfl : h0 = h := by simpa using hg
      have hrv := resolve_unresolved_mem h0 v hval hv
      refine ⟨.repeatTied ⟨h0.name, h0.candidates, some v⟩ template, ?_, ?_, ?_⟩
      · simp [Module.resolveFirst, hval, hrv, Except.toOption]
      · simp only [Module.unresolvedBound, hval]
        split <;> omega
      · intro h' hh'
        rw [Module.allHps] at hh' ⊢
        rcases List.mem_cons.mp hh' with rfl | hh'
        · exact ⟨h0, List.mem_cons_self _ _, rfl⟩
        · exact ⟨h', List.mem_cons_of_mem _ hh', rfl⟩
    · rw [Module.getUnresolvedHyperparameter] at hg
      simp only [hval] at hg
      have hk : ¬k = 0 := by
        intro hk0
        rw [if_pos hk0] at hg
        exact Option.noConfusion hg
      rw [if_neg hk] at hg
      obtain ⟨t', h1, h2, h3⟩ := stepDecrease template h v hg hv
      refine ⟨.repeatTied h0 t', ?_, ?_, ?_⟩
      · simp [Module.resolveFirst, hval, hk, h1]
      · simp only [Module.unresolvedBound, hval, if_neg hk]
        exact h2
      · intro h' hh'
        rw [Module.allHps] at hh' ⊢
        rcases List.mem_cons.mp hh' with rfl | hh'
        · exact ⟨h', List.mem_cons_self _ _, rfl⟩
        · obtain ⟨h1', hm, he⟩ := h3 h' hh'
          exact ⟨h1', List.mem_cons_of_mem _ hm, he⟩
  | residual inner =>
    rw [Module.getUnresolvedHyperparameter] at hg
    obtain ⟨t', h1, h2, h3⟩ := stepDecrease inner h v hg hv
    refine ⟨.residual t', ?_, ?_, ?_⟩
    · simp [Module.resolveFirst, h1]
    · simp only [Module.unresolvedBound]
      exact h2
    · simpa [Module.allHps] using h3
termination_by sizeOf m
decreasing_by
  all_goals subst_vars
  all_goals simp_wf
  all_goals try omega
  all_goals
    have hi : i < alts.length := (List.getElem?_eq_some.mp halt).1
    have hvv : alts[i] = a := (List.getElem?_eq_some.mp halt).2
    have := List.sizeOf_lt_of_mem (hvv ▸ List.getElem_mem hi)
    omega

theorem stepDecreaseList (cs : List Module) (h : Hyperparameter) (v : Val)
    (hg : getUnresolvedList cs = some h) (hv : v ∈ h.candidates) :
    ∃ cs', resolveFirstList cs v = some cs' ∧
      boundSum cs' < boundSum cs ∧
      ∀ h' ∈ allHpsList cs', ∃ h0 ∈ allHpsList cs, h'.candidates = h0.candidates := by
  cases cs with
  | nil =>
    rw [getUnresolvedList] at hg
    exact Option.noConfusion hg
  | cons c cs =>
    rw [getUnresolvedList] at hg
    rcases hc : c.getUnresolvedHyperparameter with _ | h1
    · rw [hc] at hg
      obtain ⟨cs', h1, h2, h3⟩ := stepDecreaseList cs h v hg hv
      refine ⟨c :: cs', ?_, ?_, ?_⟩
      · simp [resolveFirstList, hc, h1]
      · rw [boundSum, boundSum]
        omega
      · intro h' hh'
        rw [allHpsList] at hh' ⊢
        rcases List.mem_append.mp hh' with hh' | hh'
        · exact ⟨h', List.mem_append_left _ hh', rfl⟩
        · obtain ⟨h1', hm, he⟩ := h3 h' hh'
          exact ⟨h1', List.mem_append_right _ hm, he⟩
    · rw [hc] at hg
      obtain rfl : h1 = h := by simpa using hg
      obtain ⟨c', h1', h2, h3⟩ := stepDecrease c h1 v hc hv
      refine ⟨c' :: cs, ?_, ?_, ?_⟩
      · simp [resolveFirstList, hc, h1']
      · rw [boundSum, boundSum]
        omega
      · intro h' hh'
        rw [allHpsList] at hh' ⊢
        rcases List.mem_append.mp hh' with hh' | hh'
        · obtain ⟨h2', hm, he⟩ := h3 h' hh'
          exact ⟨h2', List.mem_append_left _ hm, he⟩
        · exact ⟨h', List.mem_append_right _ hh', rfl⟩
termination_by sizeOf cs
decreasing_by
  all_goals subst_vars
  all_goals simp_wf
  all_goals omega

theorem stepDecreaseListN (k : Nat) (cs : List Module) (h : Hyperparameter) (v : Val)
    (hg : getUnresolvedListN k cs = some h) (hv : v ∈ h.candidates) :
    ∃ cs', resolveFirstListN k cs v = some cs' ∧
      boundSumN k cs' < boundSumN k cs ∧
      ∀ h' ∈ allHpsList cs', ∃ h0 ∈ allHpsList cs, h'.candidates = h0.candidates := by
  cases k with
  | zero =>
    rw [getUnresolvedListN] at hg
    exact Option.noConfusion hg
  | succ k =>
    cases cs with
    | nil =>
      simp [getUnresolvedListN] at hg
    | cons c cs =>
      rw [getUnresolvedListN] at hg
      rcases hc : c.getUnresolvedHyperparameter with _ | h1
      · rw [hc] at hg
        obtain ⟨cs', h1, h2, h3⟩ := stepDecreaseListN k cs h v hg hv
        refine ⟨c :: cs', ?_, ?_, ?_⟩
        · simp [resolveFirstListN, hc, h1]
        · simp only [boundSumN]
          omega
        · intro h' hh'
          rw [allHpsList] at hh' ⊢
          rcases List.mem_append.mp hh' with hh' | hh'
          · exact ⟨h', List.mem_append_left _ hh', rfl⟩
          · obtain ⟨h1', hm, he⟩ := h3 h' hh'
            exact ⟨h1', List.mem_append_right _ hm, he⟩
      · rw [hc] at hg
        obtain rfl : h1 = h := by simpa using hg
        obtain ⟨c', h1', h2, h3⟩ := stepDecrease c h1 v hc hv
        refine ⟨c' :: cs, ?_, ?_, ?_⟩
        · simp [resolveFirstListN, hc, h1']
        · simp only [boundSumN]
          omega
        · intro h' hh'
          rw [allHpsList] at hh' ⊢
          rcases List.mem_append.mp hh' with hh' | hh'
          · obtain ⟨h2', hm, he⟩ := h3 h' hh'
            exact ⟨h2', List.mem_append_left _ hm, he⟩
          · exact ⟨h', List.mem_append_right _ hh', rfl⟩
termination_by sizeOf cs
decreasing_by
  all_goals subst_vars
  all_goals simp_wf
  all_goals omega

end

mutual

theorem getUnresolved_pos (m : Module) (h : Hyperparameter)
    (hg : m.getUnresolvedHyperparameter = some h) : 0 < m.unresolvedBound := by
  cases m with
  | leaf t hps =>
    rw [Module.getUnresolvedHyperparameter] at hg
    have hmem := List.mem_filter.mpr
      ⟨List.mem_of_find?_eq_some hg, List.find?_some hg⟩
    rw [Module.unresolvedBound]
    exact List.length_pos_of_mem hmem
  | userHyperparams ns hps =>
    rw [Module.getUnresolvedHyperparameter] at hg
    have hmem := List.mem_filter.mpr
      ⟨List.mem_of_find?_eq_some hg, List.find?_some hg⟩
    rw [Module.unresolvedBound]
    exact List.length_pos_of_mem hmem
  | concat cs =>
    rw [Module.getUnresolvedHyperparameter] at hg
    rw [Module.unresolvedBound]
    exact getUnresolvedList_pos cs h hg
  | optional h0 inner =>
    rw [Module.getUnresolvedHyperparameter] at hg
    rcases hval : h0.value with _ | b
    · simp only [Module.unresolvedBound, hval]
      omega
    · simp only [hval] at hg
      have hb : ¬b = 0 := by
        intro hb0
        rw [if_pos hb0] at hg
        exact Option.noConfusion hg
      rw [if_neg hb] at hg
      simp only [Module.unresolvedBound, hval, if_neg hb]
      exact getUnresolved_pos inner h hg
  | orMod h0 alts =>
    rcases hval : h0.value with _ | i
    · simp only [Module.unresolvedBound, hval]
      omega
    · rw [getUnresolved_orMod_getElem h0 alts i hval] at hg
      rw [unresolvedBound_orMod_getElem h0 alts i hval]
      rcases halt : alts[i]? with _ | a
      · rw [halt] at hg
        exact Option.noConfusion hg
      · rw [halt] at hg
        exact getUnresolved_pos a h hg
  | repeatMod h0 copies =>
    rw [Module.getUnresolvedHyperparameter] at hg
    rcases hval : h0.value with _ | k
    · simp only [Module.unresolvedBound, hval]
      omega
    · simp only [hval] at hg
      simp only [Module.unresolvedBound, hval]
      exact getUnresolvedListN_pos k copies h hg
  | repeatTied h0 template =>
    rw [Module.getUnresolvedHyperparameter] at hg
    rcases hval : h0.value with _ | k
    · simp only [Module.unresolvedBound, hval]
      omega
    · simp only [hval] at hg
      have hk : ¬k = 0 := by
        intro hk0
        rw [if_pos hk0] at hg
        exact Option.noConfusion hg
      rw [if_neg hk] at hg
      simp only [Module.unresolvedBound, hval, if_neg hk]
      exact getUnresolved_pos template h hg
  | residual inner =>
    rw [Module.getUnresolvedHyperparameter] at hg
    rw [Module.unresolvedBound]
    exact getUnresolved_pos inner h hg
termination_by sizeOf m
decreasing_by
  all_goals subst_vars
  all_goals simp_wf
  all_goals try omega
  all_goals
    have hi : i < alts.length := (List.getElem?_eq_some.mp halt).1
    have hvv : alts[i] = a := (List.getElem?_eq_some.mp halt).2
    have := List.sizeOf_lt_of_mem (hvv ▸ List.getElem_mem hi)
    omega

theorem getUnresolvedList_pos (cs : List Module) (h : Hyperparameter)
    (hg : getUnresolvedList cs = some h) : 0 < boundSum cs := by
  cases cs with
  | nil =>
    rw [getUnresolvedList] at hg
    exact Option.noConfusion hg
  | cons c cs =>
    rw [getUnresolvedList] at hg
    rw [boundSum]
    rcases hc : c.getUnresolvedHyperparameter with _ | h1
    · rw [hc] at hg
      have := getUnresolvedList_pos cs h hg
      omega
    · have := getUnresolved_pos c h1 hc
      omega
termination_by sizeOf cs
decreasing_by
  all_goals subst_vars
  all_goals simp_wf
  all_goals omega

theorem getUnresolvedListN_pos (k : Nat) (cs : List Module) (h : Hyperparameter)
    (hg : getUnresolvedListN k cs = some h) : 0 < boundSumN k cs := by
  cases k with
  | zero =>
    rw [getUnresolvedListN] at hg
    exact Option.noConfusion hg
  | succ k =>
    cases cs with
    | nil => simp [getUnresolvedListN] at hg
    | cons c cs =>
      rw [getUnresolvedListN] at hg
      simp only [boundSumN]
      rcases hc : c.getUnresolvedHyperparameter with _ | h1
      · rw [hc] at hg
        have := getUnresolvedListN_pos k cs h hg
        omega
      · have := getUnresolved_pos c h1 hc
        omega
termination_by sizeOf cs
decreasing_by
  all_goals subst_vars
  all_goals simp_wf
  all_goals omega

end

mutual

theorem getUnresolved_mem_allHps (m : Module) (h : Hyperparameter)
    (hg : m.getUnresolvedHyperparameter = some h) : h ∈ m.allHps := by
  cases m with
  | leaf t hps =>
    rw [Module.getUnresolvedHyperparameter] at hg
    rw [Module.allHps]
    exact List.mem_of_find?_eq_some hg
  | userHyperparams ns hps =>
    rw [Module.getUnresolvedHyperparameter] at hg
    rw [Module.allHps]
    exact List.mem_of_find?_eq_some hg
  | concat cs =>
    rw [Module.getUnresolvedHyperparameter] at hg
    rw [Module.allHps]
    exact getUnresolvedList_mem cs h hg
  | optional h0 inner =>
    rw [Module.getUnresolvedHyperparameter] at hg
    rw [Module.allHps]
    rcases hval : h0.value with _ | b
    · rw [hval] at hg
      obtain rfl : h0 = h := by simpa using hg
      exact List.mem_cons_self _ _
    · simp only [hval] at hg
      have hb : ¬b = 0 := by
        intro hb0
        rw [if_pos hb0] at hg
        exact Option.noConfusion hg
      rw [if_neg hb] at hg
      exact List.mem_cons_of_mem _ (getUnresolved_mem_allHps inner h hg)
  | orMod h0 alts =>
    rw [Module.allHps]
    rcases hval : h0.value with _ | i
    · rw [Module.getUnresolvedHyperparameter, hval] at hg
      obtain rfl : h0 = h := by simpa using hg
      exact List.mem_cons_self _ _
    · rw [getUnresolved_orMod_getElem h0 alts i hval] at hg
      rcases halt : alts[i]? with _ | a
      · rw [halt] at hg
        exact Option.noConfusion hg
      · rw [halt] at hg
        have hilt : i < alts.length := (List.getElem?_eq_some.mp halt).1
        have hamem : a ∈ alts := by
          have := (List.getElem?_eq_some.mp halt).2
          exact this ▸ List.getElem_mem hilt
        exact List.mem_cons_of_mem _
          (mem_allHpsList.mpr ⟨a, hamem, getUnresolved_mem_allHps a h hg⟩)
  | repeatMod h0 copies =>
    rw [Module.getUnresolvedHyperparameter] at hg
    rw [Module.allHps]
    rcases hval : h0.value with _ | k
    · rw [hval] at hg
      obtain rfl : h0 = h := by simpa using hg
      exact List.mem_cons_self _ _
    · simp only [hval] at hg
      exact List.mem_cons_of_mem _ (getUnresolvedListN_mem k copies h hg)
  | repeatTied h0 template =>
    rw [Module.getUnresolvedHyperparameter] at hg
    rw [Module.allHps]
    rcases hval : h0.value with _ | k
    · rw [hval] at hg
      obtain rfl : h0 = h := by simpa using hg
      exact List.mem_cons_self _ _
    · simp only [hval] at hg
      have hk : ¬k = 0 := by
        intro hk0
        rw [if_pos hk0] at hg
        exact Option.noConfusion hg
      rw [if_neg hk] at hg
      exact List.mem_cons_of_mem _ (getUnresolved_mem_allHps template h hg)
  | residual inner =>
    rw [Module.getUnresolvedHyperparameter] at hg
    rw [Module.allHps]
    exact getUnresolved_mem_allHps inner h hg
termination_by sizeOf m
decreasing_by
  all_goals subst_vars
  all_goals simp_wf
  all_goals try omega
  all_goals
    have hi : i < alts.length := (List.getElem?_eq_some.mp halt).1
    have hvv : alts[i] = a := (List.getElem?_eq_some.mp halt).2
    have := List.sizeOf_lt_of_mem (hvv ▸ List.getElem_mem hi)
    omega

theorem getUnresolvedList_mem (cs : List Module) (h : Hyperparameter)
    (hg : getUnresolvedList cs = some h) : h ∈ allHpsList cs := by
  cases cs with
  | nil =>
    rw [getUnresolvedList] at hg
    exact Option.noConfusion hg
  | cons c cs =>
    rw [getUnresolvedList] at hg
    rw [allHpsList]
    rcases hc : c.getUnresolvedHyperparameter with _ | h1
    · rw [hc] at hg
      exact List.mem_append_right _ (getUnresolvedList_mem cs h hg)
    · rw [hc] at hg
      obtain rfl : h1 = h := by simpa using hg
      exact List.mem_append_left _ (getUnresolved_mem_allHps c h1 hc)
termination_by sizeOf cs
decreasing_by
  all_goals subst_vars
  all_goals simp_wf
  all_goals omega

theorem getUnresolvedListN_mem (k : Nat) (cs : List Module) (h : Hyperparameter)
    (hg : getUnresolvedListN k cs = some h) : h ∈ allHpsList cs := by
  cases k with
  | zero =>
    rw [getUnresolvedListN] at hg
    exact Option.noConfusion hg
  | succ k =>
    cases cs with
    | nil => simp [getUnresolvedListN] at hg
    | cons c cs =>
      rw [getUnresolvedListN] at hg
      rw [allHpsList]
      rcases hc : c.getUnresolvedHyperparameter with _ | h1
      · rw [hc] at hg
        exact List.mem_append_right _ (getUnresolvedListN_mem k cs h hg)
      · rw [hc] at hg
        obtain rfl : h1 = h := by simpa using hg
        exact List.mem_append_left _ (getUnresolved_mem_allHps c h1 hc)
termination_by sizeOf cs
decreasing_by
  all_goals subst_vars
  all_goals simp_wf
  all_goals omega

end

mutual

theorem unresolvedBound_le_allHps (m : Module) :
    m.unresolvedBound ≤ m.allHps.length := by
  cases m with
  | leaf t hps =>
    rw [Module.unresolvedBound, Module.allHps]
    exact List.length_filter_le _ _
  | userHyperparams ns hps =>
    rw [Module.unresolvedBound, Module.allHps]
    exact List.length_filter_le _ _
  | concat cs =>
    rw [Module.unresolvedBound, Module.allHps]
    exact boundSum_le_allHpsList cs
  | optional h0 inner =>
    rw [Module.allHps]
    have := unresolvedBound_le_allHps inner
    rcases hval : h0.value with _ | b
    · simp only [Module.unresolvedBound, hval, List.length_cons]
      omega
    · simp only [Module.unresolvedBound, hval, List.length_cons]
      split <;> omega
  | orMod h0 alts =>
    rw [Module.allHps]
    have hmax := boundMax_le_allHpsList alts
    rcases hval : h0.value with _ | i
    · simp only [Module.unresolvedBound, hval, List.length_cons]
      omega
    · rw [unresolvedBound_orMod_getElem h0 alts i hval]
      simp only [List.length_cons]
      rcases halt : alts[i]? with _ | a
      · simp only [halt]
        omega
      · have := boundMax_getElem alts i a halt
        simp only [halt]
        omega
  | repeatMod h0 copies =>
    rw [Module.allHps]
    have hsum := boundSum_le_allHpsList copies
    rcases hval : h0.value with _ | k
    · simp only [Module.unresolvedBound, hval, List.length_cons]
      omega
    · simp only [Module.unresolvedBound, hval, List.length_cons]
      have := boundSumN_le_boundSum k copies
      omega
  | repeatTied h0 template =>
    rw [Module.allHps]
    have := unresolvedBound_le_allHps template
    rcases hval : h0.value with _ | k
    · simp only [Module.unresolvedBound, hval, List.length_cons]
      omega
    · simp only [Module.unresolvedBound, hval, List.length_cons]
      split <;> omega
  | residual inner =>
    rw [Module.unresolvedBound, Module.allHps]
    exact unresolvedBound_le_allHps inner
termination_by sizeOf m
decreasing_by
  all_goals subst_vars
  all_goals simp_wf
  all_goals omega

theorem boundSum_le_allHpsList (cs : List Module) :
    boundSum cs ≤ (allHpsList cs).length := by
  cases cs with
  | nil =>
    rw [boundSum, allHpsList]
    simp
  | cons c cs =>
    rw [boundSum, allHpsList, List.length_append]
    have h1 := unresolvedBound_le_allHps c
    have h2 := boundSum_le_allHpsList cs
    omega
termination_by sizeOf cs
decreasing_by
  all_goals subst_vars
  all_goals simp_wf
  all_goals omega

theorem boundMax_le_allHpsList (cs : List Module) :
    boundMax cs ≤ (allHpsList cs).length := by
  cases cs with
  | nil =>
    rw [boundMax, allHpsList]
    simp
  | cons c cs =>
    rw [boundMax, allHpsList, List.length_append]
    have h1 := unresolvedBound_le_allHps c
    have h2 := boundMax_le_allHpsList cs
    exact max_le (by omega) (by omega)
termination_by sizeOf cs
decreasing_by
  all_goals subst_vars
  all_goals simp_wf
  all_goals omega

end

theorem driveLoop_spec (policy : Nat → Hyperparameter → Val × Nat)
    (hpol : ∀ s h, h.candidates ≠ [] → (policy s h).1 ∈ h.candidates) :
    ∀ fuel s m, m.wellFormed → m.unresolvedBound ≤ fuel →
      (driveLoop policy fuel s m).1.getUnresolvedHyperparameter = none ∧
      (driveLoop policy fuel s m).2.2.length ≤ m.unresolvedBound := by
  intro fuel
  induction fuel with
  | zero =>
    intro s m hwf hb
    rw [driveLoop]
    refine ⟨?_, by simp⟩
    rcases hg : m.getUnresolvedHyperparameter with _ | h
    · rfl
    · exact absurd (getUnresolved_pos m h hg) (by omega)
  | succ fuel ih =>
    intro s m hwf hb
    rcases hg : m.getUnresolvedHyperparameter with _ | h
    · rw [driveLoop]
      simp [hg]
    · have hmem := getUnresolved_mem_allHps m h hg
      have hne : h.candidates ≠ [] := hwf h hmem
      have hvmem := hpol s h hne
      obtain ⟨m', h1, h2, h3⟩ := stepDecrease m h (policy s h).1 hg hvmem
      have hwf' : m'.wellFormed := by
        intro h' hh'
        obtain ⟨h0, hm0, he⟩ := h3 h' hh'
        rw [he]
        exact hwf h0 hm0
      have hb' : m'.unresolvedBound ≤ fuel := by omega
      obtain ⟨ga, gb⟩ := ih (policy s h).2 m' hwf' hb'
      have hpos := getUnresolved_pos m h hg
      rw [driveLoop]
      simp only [hg, h1]
      refine ⟨ga, ?_⟩
      simp only [List.length_cons]
      omega

/-- C1: for every well-formed Module tree (every hyperparameter offers at
least one candidate) and every searcher policy that picks values from the
candidate set, the drive loop that repeatedly calls
`get_unresolved_hyperparameter()` and resolves the returned hyperparameter
terminates: run with fuel equal to the total hyperparameter count of the
fully unfolded tree it reaches the sentinel `none`, and the number of
resolution steps it performs is at most that total hyperparameter
count. -/
theorem searcher_drive_terminates (policy : Nat → Hyperparameter → Val × Nat)
    (hpol : ∀ s h, h.candidates ≠ [] → (policy s h).1 ∈ h.candidates)
    (m : Module) (s : Nat) (hwf : m.wellFormed) :
    (driveLoop policy m.totalHpCount s m).1.getUnresolvedHyperparameter = none ∧
    (driveLoop policy m.totalHpCount s m).2.2.length ≤ m.totalHpCount := by
  have hb : m.unresolvedBound ≤ m.totalHpCount := unresolvedBound_le_allHps m
  obtain ⟨h1, h2⟩ := driveLoop_spec policy hpol m.totalHpCount s m hwf hb
  exact ⟨h1, le_trans h2 hb⟩

/-- Witness for C1 at a concrete search space (a chain of a convolution
leaf and an optional dropout) driven by the pick-first-candidate policy
from seed 7. -/
theorem searcher_drive_terminates_witness :
    (∀ s h, h.candidates ≠ [] →
      ((fun (s : Nat) (h : Hyperparameter) => (h.candidates.getD 0 0, s)) s h).1
        ∈ h.candidates) ∧
    (Module.concat [.leaf "Conv2D" [⟨"filters", [32, 48], none⟩],
      .optional ⟨"use", [0, 1], none⟩
        (.leaf "Dropout" [⟨"p", [25], none⟩])]).wellFormed ∧
    ((driveLoop (fun (s : Nat) (h : Hyperparameter) => (h.candidates.getD 0 0, s))
        (Module.concat [.leaf "Conv2D" [⟨"filters", [32, 48], none⟩],
          .optional ⟨"use", [0, 1], none⟩
            (.leaf "Dropout" [⟨"p", [25], none⟩])]).totalHpCount 7
        (Module.concat [.leaf "Conv2D" [⟨"filters", [32, 48], none⟩],
          .optional ⟨"use", [0, 1], none⟩
            (.leaf "Dropout" [⟨"p", [25], none⟩])])).1.getUnresolvedHyperparameter
        = none ∧
      ((driveLoop (fun (s : Nat) (h : Hyperparameter) => (h.candidates.getD 0 0, s))
        (Module.concat [.leaf "Conv2D" [⟨"filters", [32, 48], none⟩],
          .optional ⟨"use", [0, 1], none⟩
            (.leaf "Dropout" [⟨"p", [25], none⟩])]).totalHpCount 7
        (Module.concat [.leaf "Conv2D" [⟨"filters", [32, 48], none⟩],
          .optional ⟨"use", [0, 1], none⟩
            (.leaf "Dropout" [⟨"p", [25], none⟩])])).2.2.length
        ≤ (Module.concat [.leaf "Conv2D" [⟨"filters", [32, 48], none⟩],
          .optional ⟨"use", [0, 1], none⟩
            (.leaf "Dropout" [⟨"p", [25], none⟩])]).totalHpCount)) := by
  have hpol : ∀ s h, h.candidates ≠ [] →
      ((fun (s : Nat) (h : Hyperparameter) => (h.candidates.getD 0 0, s)) s h).1
        ∈ h.candidates := by
    intro s h hne
    cases hc : h.candidates with
    | nil => exact absurd hc hne
    | cons a l => simp [hc]
  have hwf : (Module.concat [.leaf "Conv2D" [⟨"filters", [32, 48], none⟩],
      .optional ⟨"use", [0, 1], none⟩
        (.leaf "Dropout" [⟨"p", [25], none⟩])]).wellFormed := by
    intro h hh
    simp [Module.allHps, allHpsList] at hh
    rcases hh with rfl | rfl | rfl <;> simp
  exact ⟨hpol, hwf,
    searcher_drive_terminates _ hpol _ 7 hwf⟩

mutual

theorem emit_ok_or_shape (m : Module) : ∀ inF sc,
    m.getUnresolvedHyperparameter = none →
    (∃ p, m.emitFragments inF sc = .ok p) ∨
      m.emitFragments inF sc = .error .fragmentShapeError := by
  cases m with
  | leaf t hps =>
    intro inF sc hg
    rw [Module.getUnresolvedHyperparameter] at hg
    have hall : hps.all (fun x => x.isResolved) = true := by
      rw [List.all_eq_true]
      intro x hx
      have := List.find?_eq_none.mp hg x hx
      simpa using this
    left
    rw [Module.emitFragments, if_pos hall]
    exact ⟨_, rfl⟩
  | userHyperparams ns hps =>
    intro inF sc hg
    rw [Module.getUnresolvedHyperparameter] at hg
    have hall : hps.all (fun x => x.isResolved) = true := by
      rw [List.all_eq_true]
      intro x hx
      have := List.find?_eq_none.mp hg x hx
      simpa using this
    left
    rw [Module.emitFragments, if_pos hall]
    exact ⟨_, rfl⟩
  | concat cs =>
    intro inF sc hg
    rw [Module.getUnresolvedHyperparameter] at hg
    rw [Module.emitFragments]
    exact emitList_ok_or_shape cs inF sc hg
  | optional h0 inner =>
    intro inF sc hg
    rcases hval : h0.value with _ | b
    · simp [Module.getUnresolvedHyperparameter, hval] at hg
    · by_cases hb : b = 0
      · subst hb
        left
        exact ⟨(inF, sc), by simp [Module.emitFragments, hval]⟩
      · simp only [Module.getUnresolvedHyperparameter, hval, if_neg hb] at hg
        have heq : (Module.optional h0 inner).emitFragments inF sc
            = inner.emitFragments inF sc := by
          simp [Module.emitFragments, hval, hb]
        rw [heq]
        exact emit_ok_or_shape inner inF sc hg
  | orMod h0 alts =>
    intro inF sc hg
    rcases hval : h0.value with _ | i
    · simp [Module.getUnresolvedHyperparameter, hval] at hg
    · rw [getUnresolved_orMod_getElem h0 alts i hval] at hg
      rw [emit_orMod_getElem h0 alts i inF sc hval]
      rcases halt : alts[i]? with _ | a
      · simp only [halt]
        exact Or.inl ⟨(inF, sc), rfl⟩
      · simp only [halt] at hg
        simp only [halt]
        exact emit_ok_or_shape a inF sc hg
  | repeatMod h0 copies =>
    intro inF sc hg
    rcases hval : h0.value with _ | k
    · simp [Module.getUnresolvedHyperparameter, hval] at hg
    · rw [Module.getUnresolvedHyperparameter] at hg
      simp only [hval] at hg
      simp only [Module.emitFragments, hval]
      exact emitListN_ok_or_shape k copies inF sc hg
  | repeatTied h0 template =>
    intro inF sc hg
    rcases hval : h0.value with _ | k
    · simp [Module.getUnresolvedHyperparameter, hval] at hg
    · rw [Module.getUnresolvedHyperparameter] at hg
      simp only [hval] at hg
      simp only [Module.emitFragments, hval]
      by_cases hk : k = 0
      · subst hk
        exact Or.inl ⟨(inF, sc), by rw [emitRep]⟩
      · rw [if_neg hk] at hg
        have hrep : ∀ kk inF2 sc2,
            (∃ p, emitRep kk template inF2 sc2 = .ok p) ∨
              emitRep kk template inF2 sc2 = .error .fragmentShapeError := by
          intro kk
          induction kk with
          | zero =>
            intro inF2 sc2
            exact Or.inl ⟨(inF2, sc2), by rw [emitRep]⟩
          | succ kk ihk =>
            intro inF2 sc2
            rcases emit_ok_or_shape template inF2 sc2 hg with ⟨⟨f, sc'⟩, hok⟩ | herr
            · rw [emitRep]
              simp only [hok]
              exact ihk f sc'
            · rw [emitRep]
              simp only [herr]
              exact Or.inr trivial
        exact hrep k inF sc
  | residual inner =>
    intro inF sc hg
    rw [Module.getUnresolvedHyperparameter] at hg
    rcases emit_ok_or_shape inner inF sc hg with ⟨⟨out, sc'⟩, hok⟩ | herr
    · rw [Module.emitFragments]
      simp only [hok]
      by_cases hsh : shapeCompatible inF out = true
      · rw [if_pos hsh]
        exact Or.inl ⟨_, rfl⟩
      · rw [if_neg hsh]
        exact Or.inr rfl
    · rw [Module.emitFragments]
      simp only [herr]
      exact Or.inr trivial
termination_by sizeOf m
decreasing_by
  all_goals subst_vars
  all_goals simp_wf
  all_goals try omega
  all_goals
    have hi : i < alts.length := (List.getElem?_eq_some.mp halt).1
    have hvv : alts[i] = a := (List.getElem?_eq_some.mp halt).2
    have := List.sizeOf_lt_of_mem (hvv ▸ List.getElem_mem hi)
    omega

theorem emitList_ok_or_shape (cs : List Module) : ∀ inF sc,
    getUnresolvedList cs = none →
    (∃ p, emitList cs inF sc = .ok p) ∨
      emitList cs inF sc = .error .fragmentShapeError := by
  cases cs with
  | nil =>
    intro inF sc hg
    exact Or.inl ⟨(inF, sc), by rw [emitList]⟩
  | cons c cs =>
    intro inF sc hg
    rw [getUnresolvedList] at hg
    rcases hc : c.getUnresolvedHyperparameter with _ | h1
    · rw [hc] at hg
      rcases emit_ok_or_shape c inF sc hc with ⟨⟨f, sc'⟩, hok⟩ | herr
      · rw [emitList]
        simp only [hok]
        exact emitList_ok_or_shape cs f sc' hg
      · rw [emitList]
        simp only [herr]
        exact Or.inr trivial
    · rw [hc] at hg
      exact Option.noConfusion hg
termination_by sizeOf cs
decreasing_by
  all_goals subst_vars
  all_goals simp_wf
  all_goals omega

theorem emitListN_ok_or_shape (k : Nat) (cs : List Module) : ∀ inF sc,
    getUnresolvedListN k cs = none →
    (∃ p, emitListN k cs inF sc = .ok p) ∨
      emitListN k cs inF sc = .error .fragmentShapeError := by
  cases k with
  | zero =>
    intro inF sc hg
    exact Or.inl ⟨(inF, sc), by rw [emitListN]⟩
  | succ k =>
    cases cs with
    | nil =>
      intro inF sc hg
      refine Or.inl ⟨(inF, sc), ?_⟩
      simp [emitListN]
    | cons c cs =>
      intro inF sc hg
      rw [getUnresolvedListN] at hg
      rcases hc : c.getUnresolvedHyperparameter with _ | h1
      · rw [hc] at hg
        rcases emit_ok_or_shape c inF sc hc with ⟨⟨f, sc'⟩, hok⟩ | herr
        · rw [emitListN]
          simp only [hok]
          exact emitListN_ok_or_shape k cs f sc' hg
        · rw [emitListN]
          simp only [herr]
          exact Or.inr trivial
      · rw [hc] at hg
        exact Option.noConfusion hg
termination_by sizeOf cs
decreasing_by
  all_goals subst_vars
  all_goals simp_wf
  all_goals omega

end

/-- C3: compiling a module fails with `NotFullyResolvedError` whenever any
hyperparameter anywhere in its subtree is still unresolved (whenever
`get_unresolved_hyperparameter()` still returns one); once
`get_unresolved_hyperparameter()` reports the sentinel `none` for the
subtree, compile never fails with `NotFullyResolvedError`: it either
succeeds, producing the module's output graph fragment and scope, or
fails with `FragmentShapeError`, the compile-time shape-compatibility
error a `Residual` raises when its input fragment's shape mismatches its
wrapped content's output shape.  This corrects the claim's success
conjunct: full resolution alone does not guarantee success — see the
shape-mismatch counterexample below. -/
theorem compile_requires_full_resolution (m : Module) (inF : Option Fragment)
    (sc : Scope) :
    (∀ h, m.getUnresolvedHyperparameter = some h →
      m.compile inF sc = .error .notFullyResolvedError) ∧
    (m.getUnresolvedHyperparameter = none →
      (∃ p, m.compile inF sc = .ok p) ∨
        m.compile inF sc = .error .fragmentShapeError) := by
  constructor
  · intro h hg
    exact compile_of_unresolved m inF sc h hg
  · intro hg
    rw [compile_of_resolved m inF sc hg]
    exact emit_ok_or_shape m inF sc hg

/-- Witness for C3 at a concrete affine leaf: compile fails while its
hyperparameter is unresolved; once it is resolved compile either succeeds
or raises the shape error (here it succeeds, a leaf having no residual
shape constraint). -/
theorem compile_requires_full_resolution_witness :
    (Module.leaf "Affine" [⟨"units", [256, 512], none⟩]).getUnresolvedHyperparameter
        = some ⟨"units", [256, 512], none⟩ ∧
    (Module.leaf "Affine" [⟨"units", [256, 512], none⟩]).compile none Scope.empty
        = .error .notFullyResolvedError ∧
    (Module.leaf "Affine" [⟨"units", [256, 512], some 512⟩]).getUnresolvedHyperparameter
        = none ∧
    ((∃ p, (Module.leaf "Affine" [⟨"units", [256, 512], some 512⟩]).compile none Scope.empty
        = .ok p) ∨
      (Module.leaf "Affine" [⟨"units", [256, 512], some 512⟩]).compile none Scope.empty
        = .error .fragmentShapeError) := by
  have h1 : (Module.leaf "Affine" [⟨"units", [256, 512], none⟩]).getUnresolvedHyperparameter
      = some ⟨"units", [256, 512], none⟩ := by
    simp [Module.getUnresolvedHyperparameter, Hyperparameter.isResolved]
  have h2 : (Module.leaf "Affine" [⟨"units", [256, 512], some 512⟩]).getUnresolvedHyperparameter
      = none := by
    simp [Module.getUnresolvedHyperparameter, Hyperparameter.isResolved]
  exact ⟨h1, (compile_requires_full_resolution _ none Scope.empty).1 _ h1,
    h2, (compile_requires_full_resolution _ none Scope.empty).2 h2⟩

/-- Counterexample to C3's original success conjunct: a `Residual` around
a fully resolved affine leaf — `get_unresolved_hyperparameter()` reports
the sentinel `none` for the subtree — compiled with an input fragment of
shape `[32]` against the leaf's output shape `[10]`.  Compile does not
succeed: it fails with `FragmentShapeError`, the compile-time shape error
of the spec's Residual shape-compatibility check. -/
theorem compile_shape_mismatch_counterexample :
    (Module.residual (.leaf "Affine" [⟨"units", [10], some 10⟩])).getUnresolvedHyperparameter
        = none ∧
    (Module.residual (.leaf "Affine" [⟨"units", [10], some 10⟩])).compile
        (some (.comp "Conv2D" [32] none)) Scope.empty
        = .error .fragmentShapeError ∧
    ¬ ∃ p, (Module.residual (.leaf "Affine" [⟨"units", [10], some 10⟩])).compile
        (some (.comp "Conv2D" [32] none)) Scope.empty = .ok p := by
  have hg : (Module.residual
      (.leaf "Affine" [⟨"units", [10], some 10⟩])).getUnresolvedHyperparameter
      = none := by
    simp [Module.getUnresolvedHyperparameter, Hyperparameter.isResolved]
  have hc : (Module.residual (.leaf "Affine" [⟨"units", [10], some 10⟩])).compile
      (some (.comp "Conv2D" [32] none)) Scope.empty = .error .fragmentShapeError := by
    rw [compile_of_resolved _ _ _ hg]
    rw [Module.emitFragments]
    simp [Module.emitFragments, resolvedVals, Hyperparameter.isResolved,
      shapeCompatible, shapeOf]
  refine ⟨hg, hc, ?_⟩
  rintro ⟨p, hp⟩
  rw [hc] at hp
  exact Except.noConfusion hp

mutual

theorem reprProgram_ok (m : Module) : ∃ r, m.reprProgram = .ok r := by
  cases m with
  | leaf t hps => exact ⟨_, by rw [Module.reprProgram]⟩
  | userHyperparams ns hps => exact ⟨_, by rw [Module.reprProgram]⟩
  | concat cs =>
    obtain ⟨rs, hok⟩ := reprList_ok cs
    exact ⟨.node "Concat" [] rs, by rw [Module.reprProgram]; simp [hok, Except.map]⟩
  | optional h0 inner =>
    obtain ⟨r, hok⟩ := reprProgram_ok inner
    rcases hval : h0.value with _ | b
    · exact ⟨.node "Optional" [hpRepr h0] [r],
        by rw [Module.reprProgram]; simp [hval, hok, Except.map]⟩
    · by_cases hb : b = 0
      · subst hb
        exact ⟨.node "Optional" [hpRepr h0] [],
          by rw [Module.reprProgram]; simp [hval]⟩
      · exact ⟨.node "Optional" [hpRepr h0] [r],
          by rw [Module.reprProgram]; simp [hval, hb, hok, Except.map]⟩
  | orMod h0 alts =>
    rcases hval : h0.value with _ | i
    · obtain ⟨rs, hok⟩ := reprList_ok alts
      exact ⟨.node "Or" [hpRepr h0] rs,
        by rw [Module.reprProgram]; simp [hval, hok, Except.map]⟩
    · rw [reprProgram_orMod_getElem h0 alts i hval]
      rcases halt : alts[i]? with _ | a
      · exact ⟨.node "Or" [hpRepr h0] [], rfl⟩
      · obtain ⟨r, hok⟩ := reprProgram_ok a
        exact ⟨.node "Or" [hpRepr h0] [r], by simp [hok, Except.map]⟩
  | repeatMod h0 copies =>
    rcases hval : h0.value with _ | k
    · obtain ⟨rs, hok⟩ := reprList_ok copies
      exact ⟨.node "Repeat" [hpRepr h0] rs,
        by rw [Module.reprProgram]; simp [hval, hok, Except.map]⟩
    · obtain ⟨rs, hok⟩ := reprListN_ok k copies
      exact ⟨.node "Repeat" [hpRepr h0] rs,
        by rw [Module.reprProgram]; simp [hval, hok, Except.map]⟩
  | repeatTied h0 template =>
    obtain ⟨r, hok⟩ := reprProgram_ok template
    rcases hval : h0.value with _ | k
    · exact ⟨.node "RepeatTied" [hpRepr h0] [r],
        by rw [Module.reprProgram]; simp [hval, hok, Except.map]⟩
    · by_cases hk : k = 0
      · subst hk
        exact ⟨.node "RepeatTied" [hpRepr h0] [],
          by rw [Module.reprProgram]; simp [hval]⟩
      · exact ⟨.node "RepeatTied" [hpRepr h0] [r],
          by rw [Module.reprProgram]; simp [hval, hk, hok, Except.map]⟩
  | residual inner =>
    obtain ⟨r, hok⟩ := reprProgram_ok inner
    exact ⟨.node "Residual" [] [r],
      by rw [Module.reprProgram]; simp [hok, Except.map]⟩
termination_by sizeOf m
decreasing_by
  all_goals subst_vars
  all_goals simp_wf
  all_goals try omega
  all_goals
    have hi : i < alts.length := (List.getElem?_eq_some.mp halt).1
    have hvv : alts[i] = a := (List.getElem?_eq_some.mp halt).2
    have := List.sizeOf_lt_of_mem (hvv ▸ List.getElem_mem hi)
    omega

theorem reprList_ok (cs : List Module) : ∃ rs, reprList cs = .ok rs := by
  cases cs with
  | nil => exact ⟨[], by rw [reprList]⟩
  | cons c cs =>
    obtain ⟨r, hok⟩ := reprProgram_ok c
    obtain ⟨rs, hoks⟩ := reprList_ok cs
    exact ⟨r :: rs, by rw [reprList]; simp [hok, hoks, Except.map]⟩
termination_by sizeOf cs
decreasing_by
  all_goals subst_vars
  all_goals simp_wf
  all_goals omega

theorem reprListN_ok (k : Nat) (cs : List Module) :
    ∃ rs, reprListN k cs = .ok rs := by
  cases k with
  | zero => exact ⟨[], by rw [reprListN]⟩
  | succ k =>
    cases cs with
    | nil => exact ⟨[], by simp [reprListN]⟩
    | cons c cs =>
      obtain ⟨r, hok⟩ := reprProgram_ok c
      obtain ⟨rs, hoks⟩ := reprListN_ok k cs
      exact ⟨r :: rs, by rw [reprListN]; simp [hok, hoks, Except.map]⟩
termination_by sizeOf cs
decreasing_by
  all_goals subst_vars
  all_goals simp_wf
  all_goals omega

end

theorem hpRepr_resolved (h : Hyperparameter) (hr : h.isResolved = true) :
    (match hpRepr h with
      | .resolvedV _ _ => true
      | .unresolvedC _ _ => false) = true := by
  rcases hval : h.value with _ | v
  · simp [Hyperparameter.isResolved, hval] at hr
  · simp [hpRepr, hval]

mutual

theorem reprProgram_resolved (m : Module)
    (hg : m.getUnresolvedHyperparameter = none) (r : ProgRepr)
    (hr : m.reprProgram = .ok r) : r.allResolved = true := by
  cases m with
  | leaf t hps =>
    rw [Module.getUnresolvedHyperparameter] at hg
    rw [Module.reprProgram] at hr
    obtain rfl : ProgRepr.node t (hps.map hpRepr) [] = r := by simpa using hr
    rw [ProgRepr.allResolved, allResolvedList]
    simp only [Bool.and_true]
    rw [List.all_eq_true]
    intro e he
    obtain ⟨x, hx, rfl⟩ := List.mem_map.mp he
    have := List.find?_eq_none.mp hg x hx
    exact hpRepr_resolved x (by simpa using this)
  | userHyperparams ns hps =>
    rw [Module.getUnresolvedHyperparameter] at hg
    rw [Module.reprProgram] at hr
    obtain rfl : ProgRepr.node "UserHyperparams" (hps.map hpRepr) [] = r := by
      simpa using hr
    rw [ProgRepr.allResolved, allResolvedList]
    simp only [Bool.and_true]
    rw [List.all_eq_true]
    intro e he
    obtain ⟨x, hx, rfl⟩ := List.mem_map.mp he
    have := List.find?_eq_none.mp hg x hx
    exact hpRepr_resolved x (by simpa using this)
  | concat cs =>
    rw [Module.getUnresolvedHyperparameter] at hg
    rw [Module.reprProgram] at hr
    obtain ⟨rs, hok⟩ := reprList_ok cs
    rw [hok] at hr
    obtain rfl : ProgRepr.node "Concat" [] rs = r := by
      simpa [Except.map] using hr
    rw [ProgRepr.allResolved]
    simp only [List.all_nil, Bool.true_and]
    exact reprList_resolved cs hg rs hok
  | optional h0 inner =>
    rcases hval : h0.value with _ | b
    · rw [Module.getUnresolvedHyperparameter, hval] at hg
      simp at hg
    · rw [Module.getUnresolvedHyperparameter] at hg
      simp only [hval] at hg
      rw [Module.reprProgram] at hr
      simp only [hval] at hr
      have hres : h0.isResolved = true := by
        simp [Hyperparameter.isResolved, hval]
      by_cases hb : b = 0
      · subst hb
        simp only [if_pos rfl] at hr
        obtain rfl : ProgRepr.node "Optional" [hpRepr h0] [] = r := by simpa using hr
        rw [ProgRepr.allResolved, allResolvedList]
        simp [hpRepr_resolved h0 hres]
      · rw [if_neg hb] at hg hr
        obtain ⟨ri, hok⟩ := reprProgram_ok inner
        rw [hok] at hr
        obtain rfl : ProgRepr.node "Optional" [hpRepr h0] [ri] = r := by
          simpa [Except.map] using hr
        rw [ProgRepr.allResolved, allResolvedList, allResolvedList]
        simp [hpRepr_resolved h0 hres, reprProgram_resolved inner hg ri hok]
  | orMod h0 alts =>
    rcases hval : h0.value with _ | i
    · rw [Module.getUnresolvedHyperparameter, hval] at hg
      simp at hg
    · have hres : h0.isResolved = true := by
        simp [Hyperparameter.isResolved, hval]
      rw [getUnresolved_orMod_getElem h0 alts i hval] at hg
      rw [reprProgram_orMod_getElem h0 alts i hval] at hr
      rcases halt : alts[i]? with _ | a
      · rw [halt] at hr
        obtain rfl : ProgRepr.node "Or" [hpRepr h0] [] = r := by simpa using hr
        rw [ProgRepr.allResolved, allResolvedList]
        simp [hpRepr_resolved h0 hres]
      · simp only [halt] at hg hr
        obtain ⟨ra, hok⟩ := reprProgram_ok a
        rw [hok] at hr
        obtain rfl : ProgRepr.node "Or" [hpRepr h0] [ra] = r := by
          simpa [Except.map] using hr
        rw [ProgRepr.allResolved, allResolvedList, allResolvedList]
        simp [hpRepr_resolved h0 hres, reprProgram_resolved a hg ra hok]
  | repeatMod h0 copies =>
    rcases hval : h0.value with _ | k
    · rw [Module.getUnresolvedHyperparameter, hval] at hg
      simp at hg
    · have hres : h0.isResolved = true := by
        simp [Hyperparameter.isResolved, hval]
      rw [Module.getUnresolvedHyperparameter] at hg
      simp only [hval] at hg
      rw [Module.reprProgram] at hr
      simp only [hval] at hr
      obtain ⟨rs, hok⟩ := reprListN_ok k copies
      rw [hok] at hr
      obtain rfl : ProgRepr.node "Repeat" [hpRepr h0] rs = r := by
        simpa [Except.map] using hr
      rw [ProgRepr.allResolved]
      simp [hpRepr_resolved h0 hres, reprListN_resolved k copies hg rs hok]
  | repeatTied h0 template =>
    rcases hval : h0.value with _ | k
    · rw [Module.getUnresolvedHyperparameter, hval] at hg
      simp at hg
    · have hres : h0.isResolved = true := by
        simp [Hyperparameter.isResolved, hval]
      rw [Module.getUnresolvedHyperparameter] at hg
      simp only [hval] at hg
      rw [Module.reprProgram] at hr
      simp only [hval] at hr
      by_cases hk : k = 0
      · subst hk
        simp only [if_pos rfl] at hr
        obtain rfl : ProgRepr.node "RepeatTied" [hpRepr h0] [] = r := by simpa using hr
        rw [ProgRepr.allResolved, allResolvedList]
        simp [hpRepr_resolved h0 hres]
      · rw [if_neg hk] at hg hr
        obtain ⟨rt, hok⟩ := reprProgram_ok template
        rw [hok] at hr
        obtain rfl : ProgRepr.node "RepeatTied" [hpRepr h0] [rt] = r := by
          simpa [Except.map] using hr
        rw [ProgRepr.allResolved, allResolvedList, allResolvedList]
        simp [hpRepr_resolved h0 hres, reprProgram_resolved template hg rt hok]
  | residual inner =>
    rw [Module.getUnresolvedHyperparameter] at hg
    rw [Module.reprProgram] at hr
    obtain ⟨ri, hok⟩ := reprProgram_ok inner
    rw [hok] at hr
    obtain rfl : ProgRepr.node "Residual" [] [ri] = r := by
      simpa [Except.map] using hr
    rw [ProgRepr.allResolved, allResolvedList, allResolvedList]
    simp [reprProgram_resolved inner hg ri hok]
termination_by sizeOf m
decreasing_by
  all_goals subst_vars
  all_goals simp_wf
  all_goals try omega
  all_goals
    have hi : i < alts.length := (List.getElem?_eq_some.mp halt).1
    have hvv : alts[i] = a := (List.getElem?_eq_some.mp halt).2
    have := List.sizeOf_lt_of_mem (hvv ▸ List.getElem_mem hi)
    omega

theorem reprList_resolved (cs : List Module)
    (hg : getUnresolvedList cs = none) (rs : List ProgRepr)
    (hr : reprList cs = .ok rs) : allResolvedList rs = true := by
  cases cs with
  | nil =>
    rw [reprList] at hr
    obtain rfl : ([] : List ProgRepr) = rs := by simpa using hr
    rw [allResolvedList]
  | cons c cs =>
    rw [getUnresolvedList] at hg
    rcases hc : c.getUnresolvedHyperparameter with _ | h1
    · rw [hc] at hg
      rw [reprList] at hr
      obtain ⟨r, hok⟩ := reprProgram_ok c
      obtain ⟨rs', hoks⟩ := reprList_ok cs
      rw [hok, hoks] at hr
      obtain rfl : r :: rs' = rs := by simpa [Except.map] using hr
      rw [allResolvedList]
      simp [reprProgram_resolved c hc r hok, reprList_resolved cs hg rs' hoks]
    · rw [hc] at hg
      exact Option.noConfusion hg
termination_by sizeOf cs
decreasing_by
  all_goals subst_vars
  all_goals simp_wf
  all_goals omega

theorem reprListN_resolved (k : Nat) (cs : List Module)
    (hg : getUnresolvedListN k cs = none) (rs : List ProgRepr)
    (hr : reprListN k cs = .ok rs) : allResolvedList rs = true := by
  cases k with
  | zero =>
    rw [reprListN] at hr
    obtain rfl : ([] : List ProgRepr) = rs := by simpa using hr
    rw [allResolvedList]
  | succ k =>
    cases cs with
    | nil =>
      simp only [reprListN] at hr
      obtain rfl : ([] : List ProgRepr) = rs := by simpa using hr
      rw [allResolvedList]
    | cons c cs =>
      rw [getUnresolvedListN] at hg
      rcases hc : c.getUnresolvedHyperparameter with _ | h1
      · rw [hc] at hg
        rw [reprListN] at hr
        obtain ⟨r, hok⟩ := reprProgram_ok c
        obtain ⟨rs', hoks⟩ := reprListN_ok k cs
        rw [hok, hoks] at hr
        obtain rfl : r :: rs' = rs := by simpa [Except.map] using hr
        rw [allResolvedList]
        simp [reprProgram_resolved c hc r hok, reprListN_resolved k cs hg rs' hoks]
      · rw [hc] at hg
        exact Option.noConfusion hg
termination_by sizeOf cs
decreasing_by
  all_goals subst_vars
  all_goals simp_wf
  all_goals omega

end

/-- C9: `repr_program()` never raises on any Module tree, before or after
resolution — it returns a representation without requiring any
hyperparameter to be resolved — and once the tree is fully resolved
(`get_unresolved_hyperparameter()` is the sentinel `none`) the
representation renders every listed hyperparameter with a resolved
value. -/
theorem repr_program_contract (m : Module) :
    (∃ r, m.reprProgram = .ok r) ∧
    (m.getUnresolvedHyperparameter = none →
      ∀ r, m.reprProgram = .ok r → r.allResolved = true) :=
  ⟨reprProgram_ok m, fun hg r hr => reprProgram_resolved m hg r hr⟩

/-- Witness for C9 at concrete trees: an unresolved optional-dropout tree
still renders, and its fully resolved counterpart renders with only
resolved values. -/
theorem repr_program_contract_witness :
    (∃ r, (Module.optional ⟨"use", [0, 1], none⟩
      (.leaf "Dropout" [⟨"p", [25, 50], none⟩])).reprProgram = .ok r) ∧
    (Module.optional ⟨"use", [0, 1], some 1⟩
      (.leaf "Dropout" [⟨"p", [25, 50], some 25⟩])).getUnresolvedHyperparameter
        = none ∧
    ∀ r, (Module.optional ⟨"use", [0, 1], some 1⟩
      (.leaf "Dropout" [⟨"p", [25, 50], some 25⟩])).reprProgram = .ok r →
        r.allResolved = true := by
  have hg : (Module.optional ⟨"use", [0, 1], some 1⟩
      (.leaf "Dropout" [⟨"p", [25, 50], some 25⟩])).getUnresolvedHyperparameter
        = none := by
    simp [Module.getUnresolvedHyperparameter, Hyperparameter.isResolved]
  exact ⟨(repr_program_contract _).1, hg, (repr_program_contract _).2 hg⟩

theorem driveLoop_zero (policy : Nat → Hyperparameter → Val × Nat) (s : Nat)
    (m : Module) : driveLoop policy 0 s m = (m, s, []) := by
  rw [driveLoop]

theorem driveLoop_succ_some (policy : Nat → Hyperparameter → Val × Nat)
    (fuel s s' : Nat) (v : Val) (m m' : Module) (h : Hyperparameter)
    (hg : m.getUnresolvedHyperparameter = some h)
    (hpol : policy s h = (v, s'))
    (hr : m.resolveFirst v = some m') :
    driveLoop policy (fuel + 1) s m
      = ((driveLoop policy fuel s' m').1, (driveLoop policy fuel s' m').2.1,
         v :: (driveLoop policy fuel s' m').2.2) := by
  rw [driveLoop]
  simp only [hg, hpol, hr]

theorem getD_mod_mem (l : List Val) (s : Nat) (hne : l ≠ []) :
    l.getD (s % l.length) 0 ∈ l := by
  have hlen : 0 < l.length := List.length_pos.mpr hne
  have hlt : s % l.length < l.length := Nat.mod_lt _ hlen
  rw [List.getD_eq_getElem?_getD, List.getElem?_eq_getElem hlt]
  exact List.getElem_mem hlt

theorem exampleSpace_getUnresolved_first :
    exampleConcatSpace.getUnresolvedHyperparameter = some ⟨"a", [1, 2], none⟩ := by
  simp [exampleConcatSpace, Module.getUnresolvedHyperparameter,
    getUnresolvedList, Hyperparameter.isResolved]

theorem exampleSpace_step1 (v1 : Val) (hv1 : v1 ∈ [1, 2]) :
    exampleConcatSpace.resolveFirst v1
      = some (.concat [.leaf "LeafA" [⟨"a", [1, 2], some v1⟩],
          .leaf "LeafB" [⟨"b", [10, 20], none⟩]]) := by
  have hres := resolve_unresolved_mem ⟨"a", [1, 2], none⟩ v1 rfl hv1
  simp [exampleConcatSpace, Module.resolveFirst, resolveFirstList,
    resolveFirstHps, Module.getUnresolvedHyperparameter, getUnresolvedList,
    Hyperparameter.isResolved, hres, Except.toOption]

theorem exampleSpace_getUnresolved_second (v1 : Val) :
    (Module.concat [.leaf "LeafA" [⟨"a", [1, 2], some v1⟩],
      .leaf "LeafB" [⟨"b", [10, 20], none⟩]]).getUnresolvedHyperparameter
      = some ⟨"b", [10, 20], none⟩ := by
  simp [Module.getUnresolvedHyperparameter, getUnresolvedList,
    Hyperparameter.isResolved]

theorem exampleSpace_step2 (v1 v2 : Val) (hv2 : v2 ∈ [10, 20]) :
    (Module.concat [.leaf "LeafA" [⟨"a", [1, 2], some v1⟩],
      .leaf "LeafB" [⟨"b", [10, 20], none⟩]]).resolveFirst v2
      = some (.concat [.leaf "LeafA" [⟨"a", [1, 2], some v1⟩],
          .leaf "LeafB" [⟨"b", [10, 20], some v2⟩]]) := by
  have hres := resolve_unresolved_mem ⟨"b", [10, 20], none⟩ v2 rfl hv2
  simp [Module.resolveFirst, resolveFirstList, resolveFirstHps,
    Module.getUnresolvedHyperparameter, getUnresolvedList,
    Hyperparameter.isResolved, hres, Except.toOption]

theorem exampleSpace_compile (v1 v2 : Val) :
    (Module.concat [.leaf "LeafA" [⟨"a", [1, 2], some v1⟩],
      .leaf "LeafB" [⟨"b", [10, 20], some v2⟩]]).compile none Scope.empty
      = .ok (some (.comp "LeafB" [v2] (some (.comp "LeafA" [v1] none))),
          Scope.empty) := by
  rw [compile_of_resolved _ _ _ (by
    simp [Module.getUnresolvedHyperparameter, getUnresolvedList,
      Hyperparameter.isResolved])]
  simp [Module.emitFragments, emitList, resolvedVals, Hyperparameter.isResolved]

/-- C7: the random searcher's seed is an explicit, injectable parameter
(the statement quantifies over it; there is no hidden global state), two
runs with the same seed on the example space produce identical results —
in particular the same number of resolutions in the same order with the
identical choice sequence — exactly 2 hyperparameters are resolved, each
chosen value comes from that hyperparameter's candidate set (the
seed-indexed uniform pick), and the resulting tree compiles to exactly 2
leaf fragments. -/
theorem random_searcher_reproducible (seed : Nat) :
    runRandomSearcher seed exampleConcatSpace
        = runRandomSearcher seed exampleConcatSpace ∧
    (runRandomSearcher seed exampleConcatSpace).2.2.length = 2 ∧
    (∃ v1 v2, (runRandomSearcher seed exampleConcatSpace).2.2 = [v1, v2] ∧
      v1 ∈ [1, 2] ∧ v2 ∈ [10, 20]) ∧
    (∃ p, (runRandomSearcher seed exampleConcatSpace).1.compile none Scope.empty
        = .ok p ∧ countComps p.1 = 2) := by
  have hv1 : ([1, 2] : List Val).getD (seed % 2) 0 ∈ [1, 2] :=
    getD_mod_mem [1, 2] seed (by simp)
  have hv2 : ([10, 20] : List Val).getD (lcgNext seed % 2) 0 ∈ [10, 20] :=
    getD_mod_mem [10, 20] (lcgNext seed) (by simp)
  have hme : exampleConcatSpace.totalHpCount = 0 + 1 + 1 := by
    simp [exampleConcatSpace, Module.totalHpCount, Module.allHps, allHpsList]
  have hp1 : pickCandidate seed ⟨"a", [1, 2], none⟩
      = (([1, 2] : List Val).getD (seed % 2) 0, lcgNext seed) := by
    simp [pickCandidate]
  have hp2 : pickCandidate (lcgNext seed) ⟨"b", [10, 20], none⟩
      = (([10, 20] : List Val).getD (lcgNext seed % 2) 0, lcgNext (lcgNext seed)) := by
    simp [pickCandidate]
  have hrun : runRandomSearcher seed exampleConcatSpace
      = (.concat [.leaf "LeafA" [⟨"a", [1, 2],
            some (([1, 2] : List Val).getD (seed % 2) 0)⟩],
          .leaf "LeafB" [⟨"b", [10, 20],
            some (([10, 20] : List Val).getD (lcgNext seed % 2) 0)⟩]],
         lcgNext (lcgNext seed),
         [([1, 2] : List Val).getD (seed % 2) 0,
          ([10, 20] : List Val).getD (lcgNext seed % 2) 0]) := by
    rw [runRandomSearcher, hme]
    rw [driveLoop_succ_some pickCandidate (0 + 1) seed (lcgNext seed)
      (([1, 2] : List Val).getD (seed % 2) 0) exampleConcatSpace
      (.concat [.leaf "LeafA" [⟨"a", [1, 2],
          some (([1, 2] : List Val).getD (seed % 2) 0)⟩],
        .leaf "LeafB" [⟨"b", [10, 20], none⟩]])
      ⟨"a", [1, 2], none⟩ exampleSpace_getUnresolved_first hp1
      (exampleSpace_step1 _ hv1)]
    rw [driveLoop_succ_some pickCandidate 0 (lcgNext seed)
      (lcgNext (lcgNext seed))
      (([10, 20] : List Val).getD (lcgNext seed % 2) 0)
      (.concat [.leaf "LeafA" [⟨"a", [1, 2],
          some (([1, 2] : List Val).getD (seed % 2) 0)⟩],
        .leaf "LeafB" [⟨"b", [10, 20], none⟩]])
      (.concat [.leaf "LeafA" [⟨"a", [1, 2],
          some (([1, 2] : List Val).getD (seed % 2) 0)⟩],
        .leaf "LeafB" [⟨"b", [10, 20],
          some (([10, 20] : List Val).getD (lcgNext seed % 2) 0)⟩]])
      ⟨"b", [10, 20], none⟩ (exampleSpace_getUnresolved_second _) hp2
      (exampleSpace_step2 _ _ hv2)]
    rw [driveLoop_zero]
  refine ⟨rfl, by rw [hrun]; rfl, ⟨_, _, by rw [hrun], hv1, hv2⟩, ?_⟩
  refine ⟨(some (.comp "LeafB" [([10, 20] : List Val).getD (lcgNext seed % 2) 0]
      (some (.comp "LeafA" [([1, 2] : List Val).getD (seed % 2) 0] none))),
      Scope.empty), ?_, by simp [countComps]⟩
  rw [hrun]
  exact exampleSpace_compile _ _

/-- C2: `resolve(value)` fails with `AlreadyResolvedError` whenever the
hyperparameter is already resolved (for any second value, equal or not),
fails with `InvalidValueError` whenever the value is not in the declared
candidate set, and otherwise transitions the hyperparameter from
unresolved to resolved exactly once with that value, touching nothing but
the resolved state (name and candidates are preserved, and the resolved
result rejects every further `resolve`). -/
theorem hyperparameter_resolve_contract (h : Hyperparameter) (v : Val) :
    (h.isResolved = true → h.resolve v = .error .alreadyResolvedError) ∧
    (h.isResolved = false → v ∉ h.candidates →
      h.resolve v = .error .invalidValueError) ∧
    (h.isResolved = false → v ∈ h.candidates →
      h.resolve v = .ok ⟨h.name, h.candidates, some v⟩ ∧
      (⟨h.name, h.candidates, some v⟩ : Hyperparameter).isResolved = true ∧
      ∀ w, (⟨h.name, h.candidates, some v⟩ : Hyperparameter).resolve w
              = .error .alreadyResolvedError) := by
  refine ⟨fun hr => ?_, fun hr hv => ?_, fun hr hv => ⟨?_, rfl, fun w => ?_⟩⟩
  · simp [Hyperparameter.resolve, hr]
  · simp [Hyperparameter.resolve, hr, hv]
  · simp [Hyperparameter.resolve, hr, hv]
  · simp [Hyperparameter.resolve, Hyperparameter.isResolved]

/-- Witness for C2 at a concrete hyperparameter: resolving an unresolved
boolean choice with a declared candidate succeeds, and the resolved result
rejects a second resolution. -/
theorem hyperparameter_resolve_contract_witness :
    (⟨"opt", [0, 1], none⟩ : Hyperparameter).isResolved = false ∧
    1 ∈ [0, 1] ∧
    (⟨"opt", [0, 1], none⟩ : Hyperparameter).resolve 1 = .ok ⟨"opt", [0, 1], some 1⟩ ∧
    (⟨"opt", [0, 1], some 1⟩ : Hyperparameter).resolve 1 = .error .alreadyResolvedError := by
  have hc := hyperparameter_resolve_contract ⟨"opt", [0, 1], none⟩ 1
  exact ⟨rfl, by decide,
    (hc.2.2 rfl (by decide)).1,
    (hc.2.2 rfl (by decide)).2.2 1⟩

/-- C6: an `Optional` module whose boolean hyperparameter resolved to skip
compiles to the identity pass-through (the output fragment is the input
fragment, unchanged, and the scope is untouched); resolved to include, its
compilation result is exactly the wrapped module's compilation result. -/
theorem optional_compile_contract (h : Hyperparameter) (inner : Module)
    (inF : Option Fragment) (sc : Scope) :
    (h.value = some 0 → (Module.optional h inner).compile inF sc = .ok (inF, sc)) ∧
    (∀ b, h.value = some b → b ≠ 0 →
      (Module.optional h inner).compile inF sc = inner.compile inF sc) := by
  constructor
  · intro hv
    rw [compile_of_resolved _ _ _ (by simp [Module.getUnresolvedHyperparameter, hv])]
    simp [Module.emitFragments, hv]
  · intro b hv hb
    have hgu : (Module.optional h inner).getUnresolvedHyperparameter
        = inner.getUnresolvedHyperparameter := by
      simp [Module.getUnresolvedHyperparameter, hv, hb]
    rcases hga : inner.getUnresolvedHyperparameter with _ | h'
    · rw [compile_of_resolved _ _ _ (hgu.trans hga), compile_of_resolved _ _ _ hga]
      simp [Module.emitFragments, hv, hb]
    · rw [compile_of_unresolved _ _ _ h' (hgu.trans hga),
        compile_of_unresolved _ _ _ h' hga]

/-- Witness for C6 at a concrete `Optional` module over a fully resolved
dropout leaf, with skip chosen: compile is the identity on the input
fragment. -/
theorem optional_compile_contract_witness :
    (⟨"keep", [0, 1], some 0⟩ : Hyperparameter).value = some 0 ∧
    (Module.optional ⟨"keep", [0, 1], some 0⟩
        (.leaf "Dropout" [⟨"p", [25, 50], some 25⟩])).compile
        (some (.comp "Conv2D" [32] none)) Scope.empty
      = .ok (some (.comp "Conv2D" [32] none), Scope.empty) :=
  ⟨rfl, (optional_compile_contract ⟨"keep", [0, 1], some 0⟩
      (.leaf "Dropout" [⟨"p", [25, 50], some 25⟩])
      (some (.comp "Conv2D" [32] none)) Scope.empty).1 rfl⟩

/-- C5: an `Or` module whose selector resolved to index `i` behaves
exactly as alternative `i`: compilation produces precisely the selected
alternative's fragments, traversal reaches only the selected alternative's
hyperparameters, the materialized child list is exactly the selected
alternative, and every unselected alternative is never unfolded — replacing
an unselected alternative by an arbitrary module changes neither the
traversal nor the compilation result. -/
theorem or_selects_only (h : Hyperparameter) (alts : List Module) (i : Nat) (a : Module)
    (inF : Option Fragment) (sc : Scope)
    (hv : h.value = some i) (ha : alts[i]? = some a) :
    (Module.orMod h alts).compile inF sc = a.compile inF sc ∧
    (Module.orMod h alts).getUnresolvedHyperparameter = a.getUnresolvedHyperparameter ∧
    (Module.orMod h alts).materializedChildren = [a] ∧
    (∀ j b, j ≠ i →
      (Module.orMod h (alts.set j b)).getUnresolvedHyperparameter
          = (Module.orMod h alts).getUnresolvedHyperparameter ∧
      (Module.orMod h (alts.set j b)).compile inF sc
          = (Module.orMod h alts).compile inF sc) := by
  refine ⟨?_, ?_, ?_, ?_⟩
  · have hgu : (Module.orMod h alts).getUnresolvedHyperparameter
        = a.getUnresolvedHyperparameter := by
      rw [getUnresolved_orMod_getElem h alts i hv, ha]
    rcases hga : a.getUnresolvedHyperparameter with _ | h'
    · rw [compile_of_resolved _ _ _ (hgu.trans hga), compile_of_resolved _ _ _ hga,
        emit_orMod_getElem h alts i inF sc hv, ha]
    · rw [compile_of_unresolved _ _ _ h' (hgu.trans hga),
        compile_of_unresolved _ _ _ h' hga]
  · rw [getUnresolved_orMod_getElem h alts i hv, ha]
  · simp [Module.materializedChildren, hv, ha]
  · intro j b hj
    have hset : (alts.set j b)[i]? = alts[i]? := List.getElem?_set_ne hj
    have hgu2 : (Module.orMod h (alts.set j b)).getUnresolvedHyperparameter
        = (Module.orMod h alts).getUnresolvedHyperparameter := by
      rw [getUnresolved_orMod_getElem h (alts.set j b) i hv, hset,
        getUnresolved_orMod_getElem h alts i hv]
    refine ⟨hgu2, ?_⟩
    rcases hga : (Module.orMod h alts).getUnresolvedHyperparameter with _ | h'
    · rw [compile_of_resolved _ _ _ (hgu2.trans hga), compile_of_resolved _ _ _ hga,
        emit_orMod_getElem h (alts.set j b) i inF sc hv, hset,
        emit_orMod_getElem h alts i inF sc hv]
    · rw [compile_of_unresolved _ _ _ h' (hgu2.trans hga),
        compile_of_unresolved _ _ _ h' hga]

/-- Witness for C5 at a concrete `Or` over two leaves with index 1
selected: it compiles to the second leaf's fragment and ignores a
replacement of the first alternative. -/
theorem or_selects_only_witness :
    (⟨"sel", [0, 1], some 1⟩ : Hyperparameter).value = some 1 ∧
    [Module.leaf "ModuleX" [⟨"x", [1], some 1⟩],
      Module.leaf "ModuleY" [⟨"y", [2], some 2⟩]][1]?
        = some (Module.leaf "ModuleY" [⟨"y", [2], some 2⟩]) ∧
    (Module.orMod ⟨"sel", [0, 1], some 1⟩
        [Module.leaf "ModuleX" [⟨"x", [1], some 1⟩],
         Module.leaf "ModuleY" [⟨"y", [2], some 2⟩]]).compile none Scope.empty
      = (Module.leaf "ModuleY" [⟨"y", [2], some 2⟩]).compile none Scope.empty := by
  refine ⟨rfl, rfl, ?_⟩
  exact (or_selects_only ⟨"sel", [0, 1], some 1⟩
    [Module.leaf "ModuleX" [⟨"x", [1], some 1⟩],
     Module.leaf "ModuleY" [⟨"y", [2], some 2⟩]] 1
    (Module.leaf "ModuleY" [⟨"y", [2], some 2⟩]) none Scope.empty rfl rfl).1

/-- C4: a `RepeatTied` module whose repetition-count hyperparameter is
resolved to `k` materializes exactly `k` child copies of its template, and
one drive-loop resolution step acting on any copy acts on the single
shared template, so afterwards every one of the `k` materialized copies
carries the identical resolved hyperparameter (all copies share every
hyperparameter value). -/
theorem repeat_tied_contract (h : Hyperparameter) (template t' : Module) (k : Nat) (v : Val)
    (hv : h.value = some k) (hk : k ≠ 0)
    (hres : template.resolveFirst v = some t') :
    (Module.repeatTied h template).materializedChildren.length = k ∧
    (Module.repeatTied h template).resolveFirst v = some (Module.repeatTied h t') ∧
    (Module.repeatTied h t').materializedChildren = List.replicate k t' ∧
    ∀ c ∈ (Module.repeatTied h t').materializedChildren, c = t' := by
  refine ⟨?_, ?_, ?_, ?_⟩
  · simp [Module.materializedChildren, hv]
  · simp [Module.resolveFirst, hv, hk, hres]
  · simp [Module.materializedChildren, hv]
  · intro c hc
    simp [Module.materializedChildren, hv] at hc
    exact hc.2

/-- Witness for C4 at a concrete `RepeatTied` with count resolved to 2
over a one-hyperparameter template: both materialized copies end up with
the same resolved value after one tied resolution. -/
theorem repeat_tied_contract_witness :
    (⟨"times", [1, 2, 4, 8, 16, 32], some 2⟩ : Hyperparameter).value = some 2 ∧
    (2 : Nat) ≠ 0 ∧
    (Module.leaf "Inner" [⟨"p", [5, 7], none⟩]).resolveFirst 5
        = some (.leaf "Inner" [⟨"p", [5, 7], some 5⟩]) ∧
    (Module.repeatTied ⟨"times", [1, 2, 4, 8, 16, 32], some 2⟩
        (.leaf "Inner" [⟨"p", [5, 7], none⟩])).materializedChildren.length = 2 ∧
    (Module.repeatTied ⟨"times", [1, 2, 4, 8, 16, 32], some 2⟩
        (.leaf "Inner" [⟨"p", [5, 7], some 5⟩])).materializedChildren
      = List.replicate 2 (.leaf "Inner" [⟨"p", [5, 7], some 5⟩]) := by
  have hres : (Module.leaf "Inner" [⟨"p", [5, 7], none⟩]).resolveFirst 5
      = some (.leaf "Inner" [⟨"p", [5, 7], some 5⟩]) := by
    simp [Module.resolveFirst, resolveFirstHps, Hyperparameter.isResolved,
      Hyperparameter.resolve, Except.toOption]
  have hc := repeat_tied_contract ⟨"times", [1, 2, 4, 8, 16, 32], some 2⟩
    (.leaf "Inner" [⟨"p", [5, 7], none⟩]) (.leaf "Inner" [⟨"p", [5, 7], some 5⟩])
    2 5 rfl (by decide) hres
  exact ⟨rfl, by decide, hres, hc.1, hc.2.2.1⟩

/-- C8: compiling a fully resolved `UserHyperparams` module — with `None`
input fragment, the empty scope of a fresh tree, and no caller-supplied
instance name — records its hyperparameter names and resolved values into
the scope under the `hyperp_names` / `hyperp_vals` entry keyed by type
name plus instance index (the "UserHyperparams-0" identity, modelled as the pair ("UserHyperparams", 0)), retrievable by an
external evaluator through the scope lookup. -/
theorem user_hyperparams_records_scope (names : List String) (hps : List Hyperparameter)
    (hres : hps.all (fun h => h.isResolved) = true) :
    ∃ sc', (Module.userHyperparams names hps).compile none Scope.empty = .ok (none, sc') ∧
      sc'.lookup ("UserHyperparams", 0)
        = some ⟨"UserHyperparams", names, resolvedVals hps⟩ := by
  refine ⟨Scope.empty.register ⟨"UserHyperparams", names, resolvedVals hps⟩, ?_, ?_⟩
  · have hg : (Module.userHyperparams names hps).getUnresolvedHyperparameter
        = none := by
      rw [Module.getUnresolvedHyperparameter, List.find?_eq_none]
      intro x hx
      simp [List.all_eq_true.mp hres x hx]
    rw [compile_of_resolved _ _ _ hg]
    simp [Module.emitFragments, hres]
  · rfl

/-- Witness for C8 at the tutorial's evaluator hyperparameters (optimizer
type and learning-rate choice, both resolved): the scope entry under
`UserHyperparams-0` holds their names and values. -/
theorem user_hyperparams_records_scope_witness :
    [(⟨"optimizer_type", [0, 1], some 1⟩ : Hyperparameter),
      ⟨"learning_rate_init", [2, 7], some 2⟩].all (fun h => h.isResolved) = true ∧
    ∃ sc', (Module.userHyperparams ["optimizer_type", "learning_rate_init"]
        [⟨"optimizer_type", [0, 1], some 1⟩,
         ⟨"learning_rate_init", [2, 7], some 2⟩]).compile none Scope.empty
        = .ok (none, sc') ∧
      sc'.lookup ("UserHyperparams", 0)
        = some ⟨"UserHyperparams", ["optimizer_type", "learning_rate_init"], [1, 2]⟩ := by
  refine ⟨by decide, ?_⟩
  have hc := user_hyperparams_records_scope ["optimizer_type", "learning_rate_init"]
    [⟨"optimizer_type", [0, 1], some 1⟩, ⟨"learning_rate_init", [2, 7], some 2⟩]
    (by decide)
  simpa [resolvedVals] using hc

/-- C10: an `Or` or `Repeat` (tied or untied) module whose own
hyperparameter is resolved to a choice materializing zero children —
repetition count 0, or a selector index with no corresponding
alternative — satisfies the fully-compiled check (`none` unresolved
hyperparameters) and compiles to the identity, chaining its input
fragment directly to its output with the scope untouched. -/
theorem zero_children_identity (h : Hyperparameter) (copies : List Module)
    (template : Module) (alts : List Module) (i : Nat)
    (inF : Option Fragment) (sc : Scope) :
    (h.value = some 0 →
      (Module.repeatMod h copies).getUnresolvedHyperparameter = none ∧
      (Module.repeatMod h copies).compile inF sc = .ok (inF, sc) ∧
      (Module.repeatTied h template).getUnresolvedHyperparameter = none ∧
      (Module.repeatTied h template).compile inF sc = .ok (inF, sc)) ∧
    (h.value = some i → alts[i]? = none →
      (Module.orMod h alts).getUnresolvedHyperparameter = none ∧
      (Module.orMod h alts).compile inF sc = .ok (inF, sc)) := by
  constructor
  · intro hv
    refine ⟨?_, ?_, ?_, ?_⟩
    · simp [Module.getUnresolvedHyperparameter, hv, getUnresolvedListN]
    · rw [compile_of_resolved _ _ _ (by
        simp [Module.getUnresolvedHyperparameter, hv, getUnresolvedListN])]
      simp [Module.emitFragments, hv, emitListN]
    · simp [Module.getUnresolvedHyperparameter, hv]
    · rw [compile_of_resolved _ _ _ (by
        simp [Module.getUnresolvedHyperparameter, hv])]
      simp [Module.emitFragments, hv, emitRep]
  · intro hv ha
    constructor
    · rw [getUnresolved_orMod_getElem h alts i hv, ha]
    · rw [compile_of_resolved _ _ _ (by
        rw [getUnresolved_orMod_getElem h alts i hv, ha]),
        emit_orMod_getElem h alts i inF sc hv, ha]

/-- Witness for C10 at a concrete `Repeat` whose count resolved to 0 over
a copy with an unresolved hyperparameter: the subtree counts as fully
compiled and compiles to the identity. -/
theorem zero_children_identity_witness :
    (⟨"times", [0, 1, 2], some 0⟩ : Hyperparameter).value = some 0 ∧
    (Module.repeatMod ⟨"times", [0, 1, 2], some 0⟩
        [.leaf "Inner" [⟨"p", [5, 7], none⟩]]).getUnresolvedHyperparameter = none ∧
    (Module.repeatMod ⟨"times", [0, 1, 2], some 0⟩
        [.leaf "Inner" [⟨"p", [5, 7], none⟩]]).compile
        (some (.comp "Conv2D" [32] none)) Scope.empty
      = .ok (some (.comp "Conv2D" [32] none), Scope.empty) := by
  have hc := (zero_children_identity ⟨"times", [0, 1, 2], some 0⟩
    [.leaf "Inner" [⟨"p", [5, 7], none⟩]] (.concat []) [] 0
    (some (.comp "Conv2D" [32] none)) Scope.empty).1 rfl
  exact ⟨rfl, hc.1, hc.2.1⟩

end DArch
